import Mathlib

/-!
Verification development for the spinta repository.

This file gives a shallow embedding, in Lean 4, of the parts of the code
that the specification's claims are about:

* `spinta/utils/nestedstruct.py` — `flatten` / `_flatten`;
* `spinta/cli/push.py` — the push pipeline stages `_prepare_rows_for_push`,
  `_push_to_remote_spinta`, `_send_and_receive`, `_init_push_state`,
  `_check_push_state`, `_save_push_state`;
* `spinta/backends/postgresql/__init__.py` — `check_unique_constraint`,
  `_getall_query`, `changes` / `_changes_offset` / `_changes_limit`;
* `spinta/datasets/backends/helpers.py` — `handle_ref_key_assignment`.

Python dictionaries are modelled as ordered association lists with the
insertion-order update semantics of `dict.update`; JSON-like values are the
inductive type `Val`.  External library functions (`hashlib.sha1`,
`msgpack.dumps`, `json.dumps`, the keymap `encode`) are taken as parameters
of the theorems, since only their composition, never their internals, is
relevant to the claims.
-/

namespace Spinta

/-- JSON-like values as they move through the pipeline: `none` is Python's
`None`, `date` carries the ISO-8601 rendering of a temporal value, `dict`
is an insertion-ordered Python dict. -/
inductive Val : Type where
  | vnone : Val
  | vbool : Bool → Val
  | vint : Int → Val
  | vstr : String → Val
  | vdate : String → Val
  | vlist : List Val → Val
  | vdict : List (String × Val) → Val

/-- First-match association-list lookup, the read of `d[k]` / `d.get(k)` on
a Python dict (keys of a Python dict are unique, so first match is the
match). -/
def pyGet (d : List (String × Val)) (k : String) : Option Val :=
  match d with
  | [] => Option.none
  | (k', v) :: rest => if k' = k then Option.some v else pyGet rest k

/-- `d[k] = v` on a Python dict: replace the value in place when the key is
present, append the pair otherwise. -/
def pySet (d : List (String × Val)) (k : String) (v : Val) :
    List (String × Val) :=
  match d with
  | [] => [(k, v)]
  | (k', v') :: rest =>
      if k' = k then (k', v) :: rest else (k', v') :: pySet rest k v

/-- `d.update(u)` on Python dicts: assign the pairs of `u` one by one. -/
def pyUpdate (d u : List (String × Val)) : List (String × Val) :=
  match u with
  | [] => d
  | (k, v) :: rest => pyUpdate (pySet d k v) rest

mutual

/-- Structural size of a value; fuels the recursion of `flatten`. -/
def sizeVal : Val → Nat
  | .vlist l => 1 + sizeValList l
  | .vdict l => 1 + sizeValDict l
  | _ => 1

def sizeValList : List Val → Nat
  | [] => 0
  | v :: rest => 1 + sizeVal v + sizeValList rest

def sizeValDict : List (String × Val) → Nat
  | [] => 0
  | (_, v) :: rest => 1 + sizeVal v + sizeValDict rest

end

mutual

/-- Boolean equality of values (Python `==` on JSON-like data). -/
def Val.beq : Val → Val → Bool
  | .vnone, .vnone => true
  | .vbool a, .vbool b => a == b
  | .vint a, .vint b => a == b
  | .vstr a, .vstr b => a == b
  | .vdate a, .vdate b => a == b
  | .vlist a, .vlist b => Val.beqList a b
  | .vdict a, .vdict b => Val.beqDict a b
  | _, _ => false

def Val.beqList : List Val → List Val → Bool
  | [], [] => true
  | a :: as, b :: bs => Val.beq a b && Val.beqList as bs
  | _, _ => false

def Val.beqDict : List (String × Val) → List (String × Val) → Bool
  | [], [] => true
  | (k, a) :: as, (l, b) :: bs => k == l && Val.beq a b && Val.beqDict as bs
  | _, _ => false

end

mutual

/-- Modelled from the spec: `spinta.utils.json.fix_data_for_json` is not
under `src/`; per the spec it converts values "to JSON-safe values
(ISO-8601 for temporal types)", so temporal values become their ISO-8601
strings and all other values are kept. -/
def fixDataForJson : Val → Val
  | .vdate s => .vstr s
  | .vlist l => .vlist (fixListForJson l)
  | .vdict l => .vdict (fixDictForJson l)
  | v => v

def fixListForJson : List Val → List Val
  | [] => []
  | v :: rest => fixDataForJson v :: fixListForJson rest

def fixDictForJson : List (String × Val) → List (String × Val)
  | [] => []
  | (k, v) :: rest => (k, fixDataForJson v) :: fixDictForJson rest

end

/-- Modelled from the spec: `spinta.utils.data.take` is not under `src/`;
per the spec ("Only non-reserved columns copied") `take(row.data)` keeps
exactly the keys that do not start with `_`. -/
def pyTake (d : List (String × Val)) : List (String × Val) :=
  d.filter (fun kv => !kv.1.startsWith "_")

/-- In `_flatten`'s list branch the last component of the key tuple is
suffixed with `array_sep` (`[]`) when the key is non-empty. -/
def markArrayKey : List String → List String
  | [] => []
  | [k] => [k ++ "[]"]
  | k :: rest => k :: markArrayKey rest

mutual

/-- `_flatten(value, sep='.', array_sep='[]', key)` from
`spinta/utils/nestedstruct.py`.  The first component is `Option.none`
exactly when the Python function returns `None` as first element (the
list branch); dict entries whose value is `None` are skipped; a non-empty
list contributes `(key-with-array-sep, elements)` to the second
component; a scalar contributes `{sep.join(key): value}`. -/
def pyFlattenAux (v : Val) (key : List String) :
    Option (List (String × Val)) × List (List String × List Val) :=
  match v with
  | .vdict entries => pyFlattenDict entries key [] []
  | .vlist vs =>
      match vs with
      | [] => (Option.none, [])
      | _ => (Option.none, [(markArrayKey key, vs)])
  | .vnone => (Option.some [], [])
  | _ => (Option.some [(String.intercalate "." key, v)], [])

/-- The dict branch of `_flatten`: fold over the items in insertion
order, skipping `None` values, merging child data with `data.update` and
appending child lists. -/
def pyFlattenDict (entries : List (String × Val)) (key : List String)
    (data : List (String × Val)) (lists : List (List String × List Val)) :
    Option (List (String × Val)) × List (List String × List Val) :=
  match entries with
  | [] => (Option.some data, lists)
  | (k, v) :: rest =>
      match v with
      | .vnone => pyFlattenDict rest key data lists
      | _ =>
          let r := pyFlattenAux v (key ++ [k])
          pyFlattenDict rest key (pyUpdate data (r.1.getD [])) (lists ++ r.2)

end

/-- `itertools.product` over a list of lists, rightmost factor varying
fastest, as consumed by `flatten`. -/
def pyProduct : List (List Val) → List (List Val)
  | [] => [[]]
  | l :: rest => l.flatMap (fun x => (pyProduct rest).map (fun t => x :: t))

/-- The dict comprehension
`{sep.join(k): v for k, v in zip(keys, lists) if v is not None}`
inside `flatten`, built pair by pair with Python-dict assignment. -/
def buildComb (acc : List (String × Val)) :
    List (List String × Val) → List (String × Val)
  | [] => acc
  | (k, v) :: rest =>
      match v with
      | .vnone => buildComb acc rest
      | _ => buildComb (pySet acc (String.intercalate "." k) v) rest

/-- `flatten(value, sep='.', array_sep='[]')` from
`spinta/utils/nestedstruct.py`, written with explicit fuel; `pyFlatten`
below instantiates the fuel with a sufficient bound.  The three branches
mirror the source: recurse into list elements when `_flatten` returned
`None`, take the cartesian product over the collected lists when there
are any, and otherwise yield the flat dict itself. -/
def flattenFuel : Nat → Val → List (List (String × Val))
  | 0, _ => []
  | fuel + 1, v =>
      match pyFlattenAux v [] with
      | (Option.none, ls) =>
          ls.flatMap (fun kvs => kvs.2.flatMap (fun w =>
            match w with
            | .vnone => []
            | _ => flattenFuel fuel w))
      | (Option.some d, ls) =>
          match ls with
          | [] => [d]
          | _ =>
              let keys := ls.map Prod.fst
              let lls := ls.map Prod.snd
              (pyProduct lls).flatMap (fun vals =>
                flattenFuel fuel (.vdict (pyUpdate (buildComb [] (keys.zip vals)) d)))

/-- `flatten` at adequate fuel (`flattenFuel_eq_of_le` below shows any
fuel of at least `sizeVal v` gives the same result). -/
def pyFlatten (v : Val) : List (List (String × Val)) :=
  flattenFuel (sizeVal v) v

/-- `sorted(x.items())`: Python sorts the key/value pairs of a flat dict
by key (keys in one dict are unique). -/
def sortedItems (d : List (String × Val)) : List (String × Val) :=
  d.insertionSort (fun a b => a.1 ≤ b.1)

/-- The checksum pipeline of `_check_push_state` up to serialisation:
`rev = fix_data_for_json(take(row.data))`, `rev = flatten([rev])`,
`rev = [[k, v] for x in rev for k, v in sorted(x.items())]`. -/
def checksumList (d : List (String × Val)) : List (String × Val) :=
  (pyFlatten (.vlist [fixDataForJson (.vdict (pyTake d))])).flatMap sortedItems

/-- `rev = msgpack.dumps(rev, strict_types=True)` followed by
`hashlib.sha1(rev).hexdigest()`; the two library functions enter as
parameters. -/
def pushChecksum (msgpackDumps : List (String × Val) → List Nat)
    (sha1hex : List Nat → String) (d : List (String × Val)) : String :=
  sha1hex (msgpackDumps (checksumList d))

/-! ### The push pipeline (`spinta/cli/push.py`) -/

/-- `_PushRow`: the payload dict plus the fields `_check_push_state`
mutates (`rev`, initially `None`, and `saved`, initially `False`). -/
structure PushRow where
  data : List (String × Val)
  rev : Option String := Option.none
  saved : Bool := false

/-- Read a string-valued key of a payload dict.  In the pipeline the
`_id` and `_type` entries are always strings: `_prepare_rows_for_push`
copies them from the source row (see `preparePayload`). -/
def rowStr (d : List (String × Val)) (k : String) : String :=
  match pyGet d k with
  | Option.some (.vstr s) => s
  | _ => ""

def rowType (r : PushRow) : String := rowStr r.data "_type"

def rowId (r : PushRow) : String := rowStr r.data "_id"

/-- `_prepare_rows_for_push`: the payload built for one source row —
`_op='upsert'`, `_type`, `_id`, the unparsed `_where` expression
`eq(_id, '<id>')`, then every non-reserved column of the row. -/
def preparePayload (typ id_ : String) (row : List (String × Val)) :
    List (String × Val) :=
  [("_op", Val.vstr "upsert"), ("_type", Val.vstr typ), ("_id", Val.vstr id_),
   ("_where", Val.vstr ("eq(_id, '" ++ id_ ++ "')"))] ++ pyTake row

/-- One row of a push-state table: `_init_push_state` declares exactly
the columns `id` (primary key), `rev` and `pushed`. -/
structure StateRow where
  id : String
  rev : Option String
  pushed : Nat
deriving DecidableEq

/-- A push-state table (`metadata.tables[model.name]`). -/
structure StateTable where
  name : String
  rows : List StateRow
deriving DecidableEq

/-- The push-state store: one table per model. -/
abbrev PushState := List StateTable

/-- `_init_push_state` on a fresh state file: one empty table per model
(`create(checkfirst=True)`). -/
def initPushState (models : List String) : PushState :=
  models.map (fun m => ⟨m, []⟩)

/-- `metadata.tables[name]` (the rows of the named table; the pipeline
only touches tables created for its models). -/
def getTable (st : PushState) (name : String) : List StateRow :=
  match st.find? (fun t => t.name == name) with
  | Option.some t => t.rows
  | Option.none => []

/-- `saved.get(_id)` on the dict `{id: rev}` built from the state table:
a missing id and a stored `NULL` rev are both Python `None`. -/
def savedGet (rows : List StateRow) (id_ : String) : Option String :=
  match rows.find? (fun r => r.id == id_) with
  | Option.some r => r.rev
  | Option.none => Option.none

/-- `_id in saved`. -/
def savedHas (rows : List StateRow) (id_ : String) : Bool :=
  (rows.find? (fun r => r.id == id_)).isSome

/-- `itertools.groupby(rows, key)`: maximal consecutive runs with equal
key. -/
def pyGroupBy (keyf : PushRow → String) : List PushRow → List (String × List PushRow)
  | [] => []
  | r :: rest =>
      match pyGroupBy keyf rest with
      | [] => [(keyf r, [r])]
      | (k, g) :: gs =>
          if keyf r = k then (k, r :: g) :: gs else (keyf r, [r]) :: (k, g) :: gs

/-- The inner loop of `_check_push_state` over one `groupby` group: set
`row.rev` to the checksum and `row.saved` to `_id in saved`, drop the row
when `saved.get(_id) == row.rev`, pass it through otherwise. -/
def checkGroup (msgpackDumps : List (String × Val) → List Nat)
    (sha1hex : List Nat → String) (saved : List StateRow) :
    List PushRow → List PushRow
  | [] => []
  | r :: rest =>
      let rev := pushChecksum msgpackDumps sha1hex r.data
      let r' : PushRow := { r with rev := Option.some rev, saved := savedHas saved (rowId r) }
      if savedGet saved (rowId r) = Option.some rev then
        checkGroup msgpackDumps sha1hex saved rest
      else
        r' :: checkGroup msgpackDumps sha1hex saved rest

/-- `_check_push_state`: group the stream by `_type`, load that model's
`(id → rev)` map once per group, then filter the group. -/
def checkPushState (msgpackDumps : List (String × Val) → List Nat)
    (sha1hex : List Nat → String) (st : PushState) (rows : List PushRow) :
    List PushRow :=
  (pyGroupBy rowType rows).flatMap
    (fun g => checkGroup msgpackDumps sha1hex (getTable st g.1) g.2)

/-- One step of `_save_push_state` on the table of the row's `_type`:
`UPDATE … WHERE id=_id SET id, rev, pushed` when `row.saved`, otherwise
`INSERT (id, rev, pushed)`. -/
def saveRowInTable (t : StateTable) (r : PushRow) (now : Nat) : StateTable :=
  if r.saved then
    ⟨t.name, t.rows.map (fun s =>
      if s.id == rowId r then { s with rev := r.rev, pushed := now } else s)⟩
  else
    ⟨t.name, t.rows ++ [⟨rowId r, r.rev, now⟩]⟩

/-- `_save_push_state`: thread the state through the stream, touching for
each row exactly the table named by its `_type`, and yield the row. -/
def savePushState (now : Nat) (st : PushState) :
    List PushRow → PushState × List PushRow
  | [] => (st, [])
  | r :: rest =>
      let st' := st.map (fun t => if t.name == rowType r then saveRowInTable t r now else t)
      let out := savePushState now st' rest
      (out.1, r :: out.2)

/-- An item of `resp.json()['_data']`; the code inspects only `_id`. -/
structure RecvItem where
  id : String

/-- `_send_and_receive` for one batch.  `resp = Option.none` models an
HTTP failure (non-2xx raised by `raise_for_status`, a connection error,
or an unparsable body): the function logs and returns, yielding nothing.
Otherwise, the length assertion runs before the first yield, and the
positional `_id` assertions make the generator yield sent rows up to the
first mismatch. -/
def sendAndReceive (rows : List PushRow) (resp : Option (List RecvItem)) :
    List PushRow :=
  match resp with
  | Option.none => []
  | Option.some data =>
      if rows.length = data.length then
        ((rows.zip data).takeWhile (fun p => rowId p.1 == p.2.id)).map Prod.fst
      else []

/-- The batch envelope opener `{"_data":[` of `_push_to_remote_spinta`. -/
def envHead : String := "\x7b\"_data\":["

/-- The batch envelope closer `]}`. -/
def envTail : String := "]\x7d"

/-- The accumulation loop of `_push_to_remote_spinta`: `enc` is
`json.dumps(fix_data_for_json(row.data), ensure_ascii=False)`.  A flush
happens when the buffer holds at least one row and
`len(chunk) + len(data) + len(suffix) > chunk_size`; the remainder is
flushed at the end.  Each produced pair is (rows of the batch, POST
body). -/
def pushChunksAux (enc : PushRow → String) (cs : Nat) :
    List PushRow → String → List PushRow → List (List PushRow × String)
  | [], chunk, ready =>
      if ready.isEmpty then [] else [(ready, chunk ++ envTail)]
  | r :: rest, chunk, ready =>
      let data := enc r
      if !ready.isEmpty && decide (chunk.length + data.length + envTail.length > cs) then
        (ready, chunk ++ envTail) ::
          pushChunksAux enc cs rest (envHead ++ data) [r]
      else
        pushChunksAux enc cs rest
          (chunk ++ (if ready.isEmpty then "" else ",") ++ data) (ready ++ [r])

/-- `_push_to_remote_spinta` as the list of `(batch, body)` pairs it
POSTs, in order. -/
def pushToRemote (enc : PushRow → String) (cs : Nat) (rows : List PushRow) :
    List (List PushRow × String) :=
  pushChunksAux enc cs rows envHead []

/-! ### The internal backend (`spinta/backends/postgresql/__init__.py`) -/

/-- The data-type tags `_getall_query` branches on (`DateTime`/`Date`
normalisation of list-stored values is outside the modelled claims, so
temporal columns fall under `other`). -/
inductive DType : Type where
  | string
  | integer
  | boolean
  | other
deriving DecidableEq

/-- What `_getall_query` needs of a property: its place in
`model.flatprops`, its data type, and whether its place is in
`backend.props_in_lists`. -/
structure GProp where
  place : String
  dtype : DType
  inList : Bool

/-- One query condition `{name, args: [key, value]}`. -/
structure QCond where
  op : String
  key : String
  value : Val

/-- The exceptions `_getall_query` can raise. -/
inductive GetallErr : Type where
  | fieldNotInResource
  | unknownOperator
  | notImplementedError
deriving DecidableEq

/-- A stored row of the main table, as the condition predicates see it:
scalar columns hold their value, a list property holds the `vlist` of the
values mirrored into the lists table. -/
abbrev GRow := List (String × Val)

/-- Lower-casing of a string, character by character (`sa.func.lower` /
`str.lower`). -/
def strLower (s : String) : String :=
  ⟨s.data.map Char.toLower⟩

/-- `sa.func.lower` on a text field / `value.lower()` on the searched
string. -/
def lowerVal : Val → Val
  | .vstr s => .vstr (strLower s)
  | v => v

/-- SQL comparison semantics of one operator applied to a field value and
a search value: `NULL` (a missing field) satisfies nothing; order
operators compare texts lexicographically and integers numerically. -/
def opEval (op : String) (field value : Val) : Bool :=
  match field with
  | .vnone => false
  | _ =>
      match op, field, value with
      | "eq", f, v => Val.beq f v
      | "ge", .vstr a, .vstr b => b ≤ a
      | "gt", .vstr a, .vstr b => b < a
      | "le", .vstr a, .vstr b => a ≤ b
      | "lt", .vstr a, .vstr b => a < b
      | "ge", .vint a, .vint b => b ≤ a
      | "gt", .vint a, .vint b => b < a
      | "le", .vint a, .vint b => a ≤ b
      | "lt", .vint a, .vint b => a < b
      | "contains", .vstr a, .vstr b => decide (List.IsInfix b.data a.data)
      | "startswith", .vstr a, .vstr b => a.startsWith b
      | _, _, _ => false

/-- Compile one condition against its resolved property, mirroring the
branch structure of `_getall_query`: lower both sides for `String`
properties, dispatch on the operator — `ne` raises `NotImplementedError`
(the lines after the raise are dead), unknown names raise
`UnknownOperator` — and evaluate list properties against the mirrored
list elements (the distinct-on-id join on the lists table). -/
def compileCond (p : GProp) (c : QCond) : Except GetallErr (GRow → Bool) :=
  let field : Val → Val := fun f => if p.dtype = DType.string then lowerVal f else f
  let value : Val := if p.dtype = DType.string then lowerVal c.value else c.value
  let run : (Val → Bool) → GRow → Bool := fun test row =>
    if p.inList then
      match pyGet row p.place with
      | Option.some (.vlist elems) => elems.any test
      | _ => false
    else
      test ((pyGet row p.place).getD Val.vnone)
  match c.op with
  | "eq" => Except.ok (run (fun f => opEval "eq" (field f) value))
  | "ge" => Except.ok (run (fun f => opEval "ge" (field f) value))
  | "gt" => Except.ok (run (fun f => opEval "gt" (field f) value))
  | "le" => Except.ok (run (fun f => opEval "le" (field f) value))
  | "lt" => Except.ok (run (fun f => opEval "lt" (field f) value))
  | "ne" => Except.error GetallErr.notImplementedError
  | "contains" => Except.ok (run (fun f => opEval "contains" (field f) value))
  | "startswith" => Except.ok (run (fun f => opEval "startswith" (field f) value))
  | _ => Except.error GetallErr.unknownOperator

/-- `_getall_query`: resolve each condition's key in `model.flatprops`
(raising `FieldNotInResource` for unknown keys), compile it, and collect
the conjunction of the produced conditions; the first raise aborts the
query. -/
def getallQuery (props : List GProp) : List QCond → Except GetallErr (List (GRow → Bool))
  | [] => Except.ok []
  | c :: rest =>
      match props.find? (fun p => p.place == c.key) with
      | Option.none => Except.error GetallErr.fieldNotInResource
      | Option.some p =>
          match compileCond p c with
          | Except.error e => Except.error e
          | Except.ok pred =>
              match getallQuery props rest with
              | Except.error e => Except.error e
              | Except.ok preds => Except.ok (pred :: preds)

/-! ### `check_unique_constraint` -/

/-- The write actions of `spinta.components.Action` relevant here. -/
inductive WAction : Type where
  | insert
  | upsert
  | update
  | patch
  | delete
deriving DecidableEq

/-- The lookup `check_unique_constraint` issues: the searched value, and
the `_id <> saved._id` exclusion when present. -/
structure UniqueLookup where
  value : Val
  excludeId : Option String

/-- `check_unique_constraint`, reduced to the lookup it issues
(`Option.none` = check skipped, so no `UniqueConstraint` can come out of
it).  The branch order is the source's: `UPDATE`/`PATCH` first, then the
reserved-field `PATCH` skip, then the plain condition. -/
def checkUniqueLookup (action : WAction) (propName : String) (value : Val)
    (savedId : String) : Option UniqueLookup :=
  if action = WAction.update ∨ action = WAction.patch then
    Option.some ⟨value, Option.some savedId⟩
  else if action = WAction.patch ∧
      (propName = "_id" ∨ propName = "_type" ∨ propName = "_revision") then
    Option.none
  else
    Option.some ⟨value, Option.none⟩

/-- `raise UniqueConstraint(prop)` fires iff a lookup was issued and the
backend found a row for it (`found` is `backend.get` reduced to whether
the result differs from the `not_found` sentinel). -/
def raisesUniqueConstraint (found : UniqueLookup → Bool) (action : WAction)
    (propName : String) (value : Val) (savedId : String) : Bool :=
  match checkUniqueLookup action propName value savedId with
  | Option.none => false
  | Option.some q => found q

/-! ### The changes feed -/

/-- One row of a model's changes table; only the columns the claim is
about are carried (`change` is the monotone change number). -/
structure ChangeRow where
  change : Int
  id : String
  revision : String
deriving DecidableEq

/-- `_changes_id`: filter by row id when one is given. -/
def changesIdFilter (rows : List ChangeRow) (id_ : Option String) : List ChangeRow :=
  match id_ with
  | Option.none => rows
  | Option.some i => rows.filter (fun r => r.id == i)

/-- The scalar subquery `max(change)` over the (id-filtered) query; SQL
`max` of no rows is `NULL`. -/
def maxChangeOf (rows : List ChangeRow) : Option Int :=
  (rows.map (fun r => r.change)).max?

/-- `_changes_offset`: `offset=0` is falsy, so no restriction; a positive
offset keeps `change > offset`; a negative offset keeps
`change > max(change) - abs(offset)` — comparison with a `NULL` maximum
satisfies no row. -/
def changesOffsetFilter (rows : List ChangeRow) (off : Int) : List ChangeRow :=
  if off = 0 then rows
  else if off > 0 then rows.filter (fun r => r.change > off)
  else
    match maxChangeOf rows with
    | Option.none => []
    | Option.some m => rows.filter (fun r => r.change > m - |off|)

/-- `_changes_limit`: `limit=0` is falsy, so no truncation. -/
def changesLimit (rows : List ChangeRow) (lim : Nat) : List ChangeRow :=
  if lim = 0 then rows else rows.take lim

/-- The comparison behind `order_by(table.c.change)`. -/
def changeLe (a b : ChangeRow) : Prop := a.change ≤ b.change

instance : DecidableRel changeLe := fun a b => Int.decLe a.change b.change

instance : IsTotal ChangeRow changeLe := ⟨fun a b => Int.le_total a.change b.change⟩

instance : IsTrans ChangeRow changeLe := ⟨fun _ _ _ h1 h2 => le_trans h1 h2⟩

/-- `order_by(table.c.change)`: the feed is read in ascending change
order. -/
def sortByChange (rows : List ChangeRow) : List ChangeRow :=
  rows.insertionSort changeLe

/-- The `changes` command: order by `change`, filter by id, apply the
offset semantics, then the limit. -/
def changesFeed (table : List ChangeRow) (id_ : Option String) (lim : Nat)
    (off : Int) : List ChangeRow :=
  changesLimit (changesOffsetFilter (changesIdFilter (sortByChange table) id_) off) lim

/-! ### `handle_ref_key_assignment` (`spinta/datasets/backends/helpers.py`) -/

/-- What the function reads of the reference property: `prop.level`, the
names of `prop.dtype.refprops`, the target `model_type()`, and the
owning model's `external.unknown_primary_key` / `external.pkeys`. -/
structure RefPropInfo where
  level : Option Nat
  refpropNames : List String
  targetType : String
  unknownPrimaryKey : Bool
  pkeyNames : List String

/-- `NotImplementedFeature(prop, "Ability to have multiple refprops")`. -/
inductive RefErr : Type where
  | notImplementedFeature
deriving DecidableEq

/-- `not prop.level or prop.level.value > 3`. -/
def refLevelHigh (p : RefPropInfo) : Bool :=
  match p.level with
  | Option.none => true
  | Option.some lv => lv > 3

/-- `handle_ref_key_assignment`: high levels store the KeyMap-encoded
`_id`; otherwise multiple refprops with a known primary key raise, a
single refprop stores `{refprop.name: value}`, a known primary key with
external pkeys stores `{pkeys[0].name: value}`, and the remaining case
falls back to the `_id` encoding. -/
def handleRefKeyAssignment (encode : String → Val → String) (p : RefPropInfo)
    (value : Val) : Except RefErr (List (String × Val)) :=
  if refLevelHigh p then
    Except.ok [("_id", Val.vstr (encode p.targetType value))]
  else if p.refpropNames.length > 1 ∧ ¬ p.unknownPrimaryKey then
    Except.error RefErr.notImplementedFeature
  else if p.refpropNames.length = 1 then
    Except.ok [(p.refpropNames.headD "", value)]
  else if ¬ p.unknownPrimaryKey ∧ p.pkeyNames ≠ [] then
    Except.ok [(p.pkeyNames.headD "", value)]
  else
    Except.ok [("_id", Val.vstr (encode p.targetType value))]

/-! ## Theorems -/

/-- Claim C4.  The claim says a PATCH touching a non-writable reserved
field performs no unique-constraint lookup at all.  The code's own
comment states that intent, but the first branch of
`check_unique_constraint` already matches every `PATCH`, so the
reserved-field branch is dead: at the failing input (a PATCH on `_id`)
the code does issue a lookup, with the `_id <> saved._id` exclusion, so a
`UniqueConstraint` can be raised for the field. -/
theorem claim_C4_patch_reserved_field_lookup_issued :
    checkUniqueLookup WAction.patch "_id" (Val.vstr "v") "saved" =
        Option.some ⟨Val.vstr "v", Option.some "saved"⟩ ∧
      raisesUniqueConstraint (fun _ => true) WAction.patch "_id" (Val.vstr "v") "saved" = true := by
  constructor <;> rfl

/-- Claim C7, counterexample.  At level 3 with no refprop, a known
primary key and external pkeys `["code"]`, `handle_ref_key_assignment`
stores `{pkeys[0].name: value}`, not the `{_id: …}` KeyMap encoding the
claim prescribes for every case other than the single-refprop one. -/
theorem claim_C7_counterexample :
    handleRefKeyAssignment (fun _ _ => "ENC")
        ⟨Option.some 3, [], "datasets/example/Country", false, ["code"]⟩
        (Val.vstr "lt") = Except.ok [("code", Val.vstr "lt")] ∧
      handleRefKeyAssignment (fun _ _ => "ENC")
        ⟨Option.some 3, [], "datasets/example/Country", false, ["code"]⟩
        (Val.vstr "lt") ≠ Except.ok [("_id", Val.vstr "ENC")] := by
  refine ⟨rfl, ?_⟩
  intro h
  rw [show handleRefKeyAssignment (fun _ _ => "ENC")
      ⟨Option.some 3, [], "datasets/example/Country", false, ["code"]⟩
      (Val.vstr "lt") = Except.ok [("code", Val.vstr "lt")] from rfl] at h
  simp at h

/-- Claim C7, amended: reference assignment by `level` — no level or
level above 3 gives the `_id` KeyMap encoding; at level at most 3,
multiple refprops with a known primary key raise `NotImplementedFeature`,
exactly one refprop stores `{refprop.name: value}`, no refprop with a
known primary key and non-empty external pkeys stores
`{pkeys[0].name: value}`, and every remaining case falls back to the
`_id` KeyMap encoding. -/
theorem claim_C7_handle_ref_key_assignment (encode : String → Val → String)
    (p : RefPropInfo) (v : Val) :
    (refLevelHigh p = true →
      handleRefKeyAssignment encode p v =
        Except.ok [("_id", Val.vstr (encode p.targetType v))]) ∧
    (refLevelHigh p = false → 1 < p.refpropNames.length →
      p.unknownPrimaryKey = false →
      handleRefKeyAssignment encode p v = Except.error RefErr.notImplementedFeature) ∧
    (∀ r, refLevelHigh p = false → p.refpropNames = [r] →
      handleRefKeyAssignment encode p v = Except.ok [(r, v)]) ∧
    (∀ q qs, refLevelHigh p = false → p.refpropNames = [] →
      p.unknownPrimaryKey = false → p.pkeyNames = q :: qs →
      handleRefKeyAssignment encode p v = Except.ok [(q, v)]) ∧
    (refLevelHigh p = false → p.unknownPrimaryKey = true →
      p.refpropNames.length ≠ 1 →
      handleRefKeyAssignment encode p v =
        Except.ok [("_id", Val.vstr (encode p.targetType v))]) ∧
    (refLevelHigh p = false → p.refpropNames = [] → p.pkeyNames = [] →
      handleRefKeyAssignment encode p v =
        Except.ok [("_id", Val.vstr (encode p.targetType v))]) := by
  unfold handleRefKeyAssignment
  refine ⟨?_, ?_, ?_, ?_, ?_, ?_⟩
  · intro h; simp [h]
  · intro h h1 h2; simp [h, h1, h2, Nat.ne_of_gt h1]
  · intro r h hr; simp [h, hr]
  · intro q qs h hr h2 hp; simp [h, hr, h2, hp]
  · intro h h1 h2
    rcases hr : p.refpropNames with _ | ⟨a, as⟩
    · simp [h, h1, hr]
    · rcases as with _ | ⟨b, bs⟩
      · exact absurd (by rw [hr]; rfl) h2
      · simp [h, h1, hr]
  · intro h hr hp; simp [h, hr, hp]

/-- Claim C7, witness for the amended theorem: each branch evaluated at a
concrete input. -/
theorem claim_C7_witness :
    handleRefKeyAssignment (fun _ _ => "E") ⟨Option.none, [], "T", false, []⟩ (Val.vint 1) =
        Except.ok [("_id", Val.vstr "E")] ∧
      handleRefKeyAssignment (fun _ _ => "E") ⟨Option.some 2, ["a", "b"], "T", false, []⟩ (Val.vint 1) =
        Except.error RefErr.notImplementedFeature ∧
      handleRefKeyAssignment (fun _ _ => "E") ⟨Option.some 2, ["a"], "T", true, []⟩ (Val.vint 1) =
        Except.ok [("a", Val.vint 1)] ∧
      handleRefKeyAssignment (fun _ _ => "E") ⟨Option.some 2, [], "T", false, ["k", "l"]⟩ (Val.vint 1) =
        Except.ok [("k", Val.vint 1)] ∧
      handleRefKeyAssignment (fun _ _ => "E") ⟨Option.some 2, ["a", "b"], "T", true, []⟩ (Val.vint 1) =
        Except.ok [("_id", Val.vstr "E")] ∧
      handleRefKeyAssignment (fun _ _ => "E") ⟨Option.some 2, [], "T", true, []⟩ (Val.vint 1) =
        Except.ok [("_id", Val.vstr "E")] := by
  refine ⟨?_, ?_, ?_, ?_, ?_, ?_⟩
  · exact (claim_C7_handle_ref_key_assignment (fun _ _ => "E")
      ⟨Option.none, [], "T", false, []⟩ (Val.vint 1)).1 rfl
  · exact (claim_C7_handle_ref_key_assignment (fun _ _ => "E")
      ⟨Option.some 2, ["a", "b"], "T", false, []⟩ (Val.vint 1)).2.1 rfl (by decide) rfl
  · exact (claim_C7_handle_ref_key_assignment (fun _ _ => "E")
      ⟨Option.some 2, ["a"], "T", true, []⟩ (Val.vint 1)).2.2.1 "a" rfl rfl
  · exact (claim_C7_handle_ref_key_assignment (fun _ _ => "E")
      ⟨Option.some 2, [], "T", false, ["k", "l"]⟩ (Val.vint 1)).2.2.2.1 "k" ["l"] rfl rfl rfl rfl
  · exact (claim_C7_handle_ref_key_assignment (fun _ _ => "E")
      ⟨Option.some 2, ["a", "b"], "T", true, []⟩ (Val.vint 1)).2.2.2.2.1 rfl rfl (by decide)
  · exact (claim_C7_handle_ref_key_assignment (fun _ _ => "E")
      ⟨Option.some 2, [], "T", true, []⟩ (Val.vint 1)).2.2.2.2.2 rfl rfl rfl

/-- The operator names `_getall_query` dispatches on (everything else
raises `UnknownOperator`). -/
def knownOps : List String :=
  ["eq", "ge", "gt", "le", "lt", "ne", "contains", "startswith"]

/-- `compileCond` succeeds on every known operator except `ne`. -/
theorem compileCond_ok_of_known (p : GProp) (c : QCond) (hop : c.op ∈ knownOps)
    (hne : c.op ≠ "ne") : ∃ pred, compileCond p c = Except.ok pred := by
  obtain ⟨op, key, value⟩ := c
  simp only [knownOps, List.mem_cons, List.not_mem_nil, or_false] at hop
  rcases hop with h | h | h | h | h | h | h | h <;> subst h <;>
    first
      | exact absurd rfl hne
      | exact ⟨_, rfl⟩

/-- `compileCond` raises `NotImplementedError` on `ne`. -/
theorem compileCond_ne (p : GProp) (c : QCond) (hop : c.op = "ne") :
    compileCond p c = Except.error GetallErr.notImplementedError := by
  simp [compileCond, hop]

/-- Claim C3, counterexample: a getall query with a `ne` condition on a
list property (`notes.note` under an array) raises
`NotImplementedError`, so the query fails instead of returning the
claimed NOT-EXISTS semantics. -/
theorem claim_C3_counterexample :
    getallQuery [⟨"notes.note", DType.string, true⟩]
        [⟨"ne", "notes.note", Val.vstr "x"⟩] =
      Except.error GetallErr.notImplementedError := rfl

/-- Claim C3, amended: for every getall query whose conditions all name
known properties and known operators and that contains a `ne` condition
(in particular a `ne` on a list property), `_getall_query` raises
`NotImplementedError` — the NOT-EXISTS branch after the raise is dead
code. -/
theorem claim_C3_ne_query_raises (props : List GProp) (conds : List QCond)
    (hkeys : ∀ c ∈ conds, ∃ p ∈ props, p.place = c.key)
    (hops : ∀ c ∈ conds, c.op ∈ knownOps)
    (hne : ∃ c ∈ conds, c.op = "ne") :
    getallQuery props conds = Except.error GetallErr.notImplementedError := by
  induction conds with
  | nil => simp at hne
  | cons c rest ih =>
      have hfind : (props.find? (fun p => p.place == c.key)).isSome := by
        rw [List.find?_isSome]
        obtain ⟨p, hp, hpl⟩ := hkeys c (List.mem_cons_self c rest)
        exact ⟨p, hp, by simp [hpl]⟩
      obtain ⟨p, hp⟩ := Option.isSome_iff_exists.mp hfind
      by_cases hcne : c.op = "ne"
      · simp [getallQuery, hp, compileCond_ne p c hcne]
      · obtain ⟨pred, hpred⟩ :=
          compileCond_ok_of_known p c (hops c (List.mem_cons_self c rest)) hcne
        have hrest : ∃ c ∈ rest, c.op = "ne" := by
          rcases hne with ⟨c', hc', hop'⟩
          rcases List.mem_cons.mp hc' with h | h
          · exact absurd (h ▸ hop') hcne
          · exact ⟨c', h, hop'⟩
        have := ih (fun c hc => hkeys c (List.mem_cons_of_mem _ hc))
          (fun c hc => hops c (List.mem_cons_of_mem _ hc)) hrest
        simp [getallQuery, hp, hpred, this]

/-- Claim C3, witness for the amended theorem: the concrete `ne` query
on the list property. -/
theorem claim_C3_witness :
    getallQuery [⟨"notes.note", DType.string, true⟩]
        [⟨"eq", "notes.note", Val.vstr "y"⟩, ⟨"ne", "notes.note", Val.vstr "x"⟩] =
      Except.error GetallErr.notImplementedError :=
  claim_C3_ne_query_raises [⟨"notes.note", DType.string, true⟩]
    [⟨"eq", "notes.note", Val.vstr "y"⟩, ⟨"ne", "notes.note", Val.vstr "x"⟩]
    (by intro c hc
        refine ⟨⟨"notes.note", DType.string, true⟩, List.mem_singleton.mpr rfl, ?_⟩
        rcases List.mem_cons.mp hc with h | h
        · rw [h]
        · rw [List.mem_singleton.mp h])
    (by intro c hc
        rcases List.mem_cons.mp hc with h | h
        · rw [h]; simp [knownOps]
        · rw [List.mem_singleton.mp h]; simp [knownOps])
    ⟨⟨"ne", "notes.note", Val.vstr "x"⟩, by simp, rfl⟩

/-- Claim C5: every getall filter condition on a property of string type
compares case-insensitively — for each supported operator the compiled
condition applies the operator to the lower-cased stored field and the
lower-cased searched value (for scalar string columns and, elementwise,
for string properties mirrored under a list), so the outcome depends
only on the lower-cased sides; in particular two values differing only
in letter case satisfy `eq`. -/
theorem claim_C5_string_conditions_case_insensitive (p : GProp) (s : String)
    (hs : p.dtype = DType.string) :
    (∃ pred, compileCond p ⟨"eq", p.place, Val.vstr s⟩ = Except.ok pred ∧
      (p.inList = false → ∀ (row : GRow) (t : String),
        pyGet row p.place = Option.some (Val.vstr t) →
        (pred row = true ↔ strLower t = strLower s)) ∧
      (p.inList = true → ∀ (row : GRow) (ts : List String),
        pyGet row p.place = Option.some (Val.vlist (ts.map Val.vstr)) →
        (pred row = true ↔ ∃ t ∈ ts, strLower t = strLower s))) ∧
    (∀ op, op ∈ knownOps → op ≠ "ne" →
      ∃ pred, compileCond p ⟨op, p.place, Val.vstr s⟩ = Except.ok pred ∧
        (p.inList = false → ∀ (row : GRow) (t : String),
          pyGet row p.place = Option.some (Val.vstr t) →
          pred row = opEval op (Val.vstr (strLower t)) (Val.vstr (strLower s))) ∧
        (p.inList = true → ∀ (row : GRow) (elems : List Val),
          pyGet row p.place = Option.some (Val.vlist elems) →
          pred row = elems.any (fun e => opEval op (lowerVal e) (Val.vstr (strLower s))))) ∧
    (∀ (op : String) (row1 row2 : GRow) (t1 t2 : String),
      op ∈ knownOps → op ≠ "ne" → p.inList = false → strLower t1 = strLower t2 →
      pyGet row1 p.place = Option.some (Val.vstr t1) →
      pyGet row2 p.place = Option.some (Val.vstr t2) →
      Except.map (fun pred => pred row1) (compileCond p ⟨op, p.place, Val.vstr s⟩) =
        Except.map (fun pred => pred row2) (compileCond p ⟨op, p.place, Val.vstr s⟩)) := by
  have hgen : ∀ op, op ∈ knownOps → op ≠ "ne" →
      ∃ pred, compileCond p ⟨op, p.place, Val.vstr s⟩ = Except.ok pred ∧
        (p.inList = false → ∀ (row : GRow) (t : String),
          pyGet row p.place = Option.some (Val.vstr t) →
          pred row = opEval op (Val.vstr (strLower t)) (Val.vstr (strLower s))) ∧
        (p.inList = true → ∀ (row : GRow) (elems : List Val),
          pyGet row p.place = Option.some (Val.vlist elems) →
          pred row = elems.any (fun e => opEval op (lowerVal e) (Val.vstr (strLower s)))) := by
    intro op hop hne
    simp only [knownOps, List.mem_cons, List.not_mem_nil, or_false] at hop
    rcases hop with h | h | h | h | h | h | h | h <;> subst h <;>
      first
        | exact absurd rfl hne
        | refine ⟨_, rfl, ?_, ?_⟩
          · intro hil row t hrow
            simp [hil, hs, hrow, lowerVal]
          · intro hil row elems hrow
            simp [hil, hs, hrow, lowerVal]
  refine ⟨?_, hgen, ?_⟩
  · refine ⟨_, rfl, ?_, ?_⟩
    · intro hil row t hrow
      simp only [hil, hs, if_pos rfl, Bool.false_eq_true, if_false, hrow,
        Option.getD_some, lowerVal]
      simp [opEval, Val.beq]
    · intro hil row ts hrow
      simp only [hil, hs, if_pos rfl, if_true, hrow]
      simp [List.any_eq_true, opEval, lowerVal, Val.beq]
  · intro op row1 row2 t1 t2 hop hne hil hlow h1 h2
    obtain ⟨pred, hok, hsc, -⟩ := hgen op hop hne
    rw [hok]
    show Except.ok (pred row1) = Except.ok (pred row2)
    rw [hsc hil row1 t1 h1, hsc hil row2 t2 h2, hlow]

/-- Claim C5, witness: `Earth` stored — the `eq` condition with `eARTH`
accepts it, the `startswith` condition with `eAR` is the raw operator on
the lower-cased sides, and a `contains` condition with `ART` gives the
same outcome on rows storing `Earth` and `eartH`. -/
theorem claim_C5_witness :
    Except.map (fun pred => pred [("title", Val.vstr "Earth")])
        (compileCond ⟨"title", DType.string, false⟩
          ⟨"eq", "title", Val.vstr "eARTH"⟩) = Except.ok true ∧
      Except.map (fun pred => pred [("title", Val.vstr "Earth")])
          (compileCond ⟨"title", DType.string, false⟩
            ⟨"startswith", "title", Val.vstr "eAR"⟩) =
        Except.ok (opEval "startswith" (Val.vstr (strLower "Earth"))
          (Val.vstr (strLower "eAR"))) ∧
      Except.map (fun pred => pred [("title", Val.vstr "Earth")])
          (compileCond ⟨"title", DType.string, false⟩
            ⟨"contains", "title", Val.vstr "ART"⟩) =
        Except.map (fun pred => pred [("name", Val.vstr "x"), ("title", Val.vstr "eartH")])
          (compileCond ⟨"title", DType.string, false⟩
            ⟨"contains", "title", Val.vstr "ART"⟩) := by
  refine ⟨?_, ?_, ?_⟩
  · obtain ⟨pred, hok, hscalar, -⟩ :=
      (claim_C5_string_conditions_case_insensitive
        ⟨"title", DType.string, false⟩ "eARTH" rfl).1
    rw [hok]
    show Except.ok (pred [("title", Val.vstr "Earth")]) = Except.ok true
    rw [(hscalar rfl [("title", Val.vstr "Earth")] "Earth" rfl).mpr (by decide)]
  · obtain ⟨pred, hok, hscalar, -⟩ :=
      (claim_C5_string_conditions_case_insensitive
        ⟨"title", DType.string, false⟩ "eAR" rfl).2.1 "startswith"
        (by simp [knownOps]) (by decide)
    rw [hok]
    show Except.ok (pred [("title", Val.vstr "Earth")]) = _
    rw [hscalar rfl [("title", Val.vstr "Earth")] "Earth" rfl]
  · exact (claim_C5_string_conditions_case_insensitive
      ⟨"title", DType.string, false⟩ "ART" rfl).2.2 "contains"
      [("title", Val.vstr "Earth")] [("name", Val.vstr "x"), ("title", Val.vstr "eartH")]
      "Earth" "eartH" (by simp [knownOps]) (by decide) rfl (by decide) rfl rfl

/-- The id-filtered, change-ordered base of the feed (the query before
offset and limit are applied). -/
def changesBase (table : List ChangeRow) (id_ : Option String) : List ChangeRow :=
  changesIdFilter (sortByChange table) id_

theorem changesBase_sorted (table : List ChangeRow) (id_ : Option String) :
    List.Sorted changeLe (changesBase table id_) := by
  have hs : List.Sorted changeLe (sortByChange table) :=
    List.sorted_insertionSort changeLe table
  cases id_ with
  | none => exact hs
  | some i => exact hs.filter _

/-- Claim C6: changes-feed offset semantics.  With a negative offset the
feed holds exactly the entries whose change number exceeds
`max(change) - abs(offset)`; with offset 0 it starts from the first
entry; and the feed is always in ascending change order. -/
theorem claim_C6_changes_offset_semantics :
    (∀ (table : List ChangeRow) (id_ : Option String) (off m : Int)
        (e : ChangeRow), off < 0 →
      maxChangeOf (changesBase table id_) = Option.some m →
      (e ∈ changesFeed table id_ 0 off ↔
        e ∈ changesBase table id_ ∧ m - |off| < e.change)) ∧
    (∀ (table : List ChangeRow) (id_ : Option String),
      changesFeed table id_ 0 0 = changesBase table id_) ∧
    (∀ (table : List ChangeRow) (id_ : Option String) (lim : Nat) (off : Int),
      List.Sorted changeLe (changesFeed table id_ lim off)) := by
  refine ⟨?_, ?_, ?_⟩
  · intro table id_ off m e hoff hmax
    have h0 : ¬ off = 0 := by omega
    have h1 : ¬ off > 0 := by omega
    unfold changesFeed changesLimit changesOffsetFilter
    rw [if_pos rfl]
    rw [if_neg h0, if_neg h1]
    unfold changesBase at hmax ⊢
    rw [hmax]
    simp [List.mem_filter]
  · intro table id_
    unfold changesFeed changesLimit changesOffsetFilter changesBase
    rw [if_pos rfl, if_pos rfl]
  · intro table id_ lim off
    have hbase : List.Sorted changeLe (changesBase table id_) :=
      changesBase_sorted table id_
    have hoff : List.Sorted changeLe
        (changesOffsetFilter (changesBase table id_) off) := by
      unfold changesOffsetFilter
      by_cases h0 : off = 0
      · rw [if_pos h0]; exact hbase
      · rw [if_neg h0]
        by_cases h1 : off > 0
        · rw [if_pos h1]; exact hbase.filter _
        · rw [if_neg h1]
          cases maxChangeOf (changesBase table id_) with
          | none => exact List.sorted_nil
          | some m => exact hbase.filter _
    show List.Sorted changeLe (changesLimit _ lim)
    unfold changesLimit
    by_cases hl : lim = 0
    · rw [if_pos hl]; exact hoff
    · rw [if_neg hl]
      exact List.Pairwise.sublist (List.take_sublist lim _) hoff

/-- Claim C6, witness: three changes `1,2,3`, offset `-2` — the feed
returns the entries with change number above `3 - 2 = 1`, and entry 3 is
among them while entry 1 is not. -/
theorem claim_C6_witness :
    (⟨3, "a", "r3"⟩ : ChangeRow) ∈
        changesFeed [⟨2, "a", "r2"⟩, ⟨3, "a", "r3"⟩, ⟨1, "a", "r1"⟩] Option.none 0 (-2) ∧
      ¬ (⟨1, "a", "r1"⟩ : ChangeRow) ∈
        changesFeed [⟨2, "a", "r2"⟩, ⟨3, "a", "r3"⟩, ⟨1, "a", "r1"⟩] Option.none 0 (-2) := by
  constructor
  · exact (claim_C6_changes_offset_semantics.1
      [⟨2, "a", "r2"⟩, ⟨3, "a", "r3"⟩, ⟨1, "a", "r1"⟩] Option.none (-2) 3
      ⟨3, "a", "r3"⟩ (by decide) (by decide)).mpr ⟨by decide, by decide⟩
  · intro hmem
    have := (claim_C6_changes_offset_semantics.1
      [⟨2, "a", "r2"⟩, ⟨3, "a", "r3"⟩, ⟨1, "a", "r1"⟩] Option.none (-2) 3
      ⟨1, "a", "r1"⟩ (by decide) (by decide)).mp hmem
    exact absurd this.2 (by decide)

/-- The comma-joined encodings of the rows of one batch — the text
between the envelope opener and closer of the POST body. -/
def encJoin (enc : PushRow → String) : List PushRow → String
  | [] => ""
  | [r] => enc r
  | r :: rest => enc r ++ "," ++ encJoin enc rest

theorem encJoin_append_single (enc : PushRow → String) (ready : List PushRow)
    (r : PushRow) :
    encJoin enc (ready ++ [r]) =
      encJoin enc ready ++ (if ready.isEmpty then "" else ",") ++ enc r := by
  induction ready with
  | nil => rfl
  | cons a rest ih =>
      cases rest with
      | nil => rfl
      | cons b rest' =>
          show enc a ++ "," ++ encJoin enc ((b :: rest') ++ [r]) = _
          rw [ih]
          simp [encJoin, String.append_assoc]

/-- Invariant of the accumulation loop: when the buffer is the envelope
opener followed by the joined encodings of `ready`, the emitted batches
concatenate to `ready ++ rows`, and every batch is non-empty with the
complete envelope as its body. -/
theorem pushChunksAux_spec (enc : PushRow → String) (cs : Nat) :
    ∀ (rows ready : List PushRow) (chunk : String),
      chunk = envHead ++ encJoin enc ready →
      ((pushChunksAux enc cs rows chunk ready).map Prod.fst).flatten =
          ready ++ rows ∧
        ∀ b ∈ pushChunksAux enc cs rows chunk ready,
          b.1 ≠ [] ∧ b.2 = envHead ++ encJoin enc b.1 ++ envTail := by
  intro rows
  induction rows with
  | nil =>
      intro ready chunk hchunk
      unfold pushChunksAux
      cases hready : ready.isEmpty with
      | true =>
          rw [if_pos rfl]
          refine ⟨?_, by intro b hb; simp at hb⟩
          rw [List.isEmpty_iff.mp hready]
          rfl
      | false =>
          rw [if_neg (by simp)]
          refine ⟨by simp, ?_⟩
          intro b hb
          rw [List.mem_singleton] at hb
          subst hb
          refine ⟨fun h => ?_, ?_⟩
          · rw [List.isEmpty_eq_false] at hready
            exact hready h
          · rw [hchunk, String.append_assoc]
  | cons r rest ih =>
      intro ready chunk hchunk
      unfold pushChunksAux
      by_cases hflush :
          (!ready.isEmpty && decide (chunk.length + (enc r).length + envTail.length > cs)) = true
      · rw [if_pos hflush]
        have hinv : envHead ++ enc r = envHead ++ encJoin enc [r] := rfl
        obtain ⟨hflat, hbatch⟩ := ih [r] (envHead ++ enc r) hinv
        refine ⟨?_, ?_⟩
        · simp only [List.map_cons, List.flatten_cons, hflat]
          rfl
        · intro b hb
          rcases List.mem_cons.mp hb with hb | hb
          · subst hb
            refine ⟨?_, ?_⟩
            · intro h
              have h' : ready = [] := h
              rw [h'] at hflush
              simp at hflush
            · rw [hchunk, String.append_assoc]
          · exact hbatch b hb
      · rw [if_neg hflush]
        have hinv : chunk ++ (if ready.isEmpty then "" else ",") ++ enc r =
            envHead ++ encJoin enc (ready ++ [r]) := by
          rw [encJoin_append_single, hchunk]
          rw [String.append_assoc, String.append_assoc, String.append_assoc]
        obtain ⟨hflat, hbatch⟩ := ih (ready ++ [r]) _ hinv
        refine ⟨?_, hbatch⟩
        rw [hflat, List.append_assoc]
        rfl

/-- Claim C9: the batching stage of `_push_to_remote_spinta` sends
exactly the input rows in order — the concatenation of the batches is the
input stream — for every chunk size; each POST body is the JSON envelope
(opener, comma-joined row encodings, closer) of a non-empty batch; hence
two chunk sizes yield the identical row stream at the remote. -/
theorem claim_C9_chunking_preserves_stream (enc : PushRow → String)
    (cs1 cs2 : Nat) (rows : List PushRow) :
    ((pushToRemote enc cs1 rows).map Prod.fst).flatten = rows ∧
      (∀ b ∈ pushToRemote enc cs1 rows,
        b.1 ≠ [] ∧ b.2 = envHead ++ encJoin enc b.1 ++ envTail) ∧
      ((pushToRemote enc cs1 rows).map Prod.fst).flatten =
        ((pushToRemote enc cs2 rows).map Prod.fst).flatten := by
  have h1 := pushChunksAux_spec enc cs1 rows [] envHead rfl
  have h2 := pushChunksAux_spec enc cs2 rows [] envHead rfl
  exact ⟨h1.1, h1.2, by rw [pushToRemote, pushToRemote, h1.1, h2.1]⟩

/-- Claim C9, witness: two one-byte rows with a tiny chunk size split
into two singleton batches whose concatenation is the input, and the
first emitted batch is non-empty with its envelope body. -/
theorem claim_C9_witness :
    ((pushToRemote (fun r => rowId r) 1
          [⟨[("_id", Val.vstr "a")], Option.none, false⟩,
           ⟨[("_id", Val.vstr "b")], Option.none, false⟩]).map Prod.fst).flatten =
        [⟨[("_id", Val.vstr "a")], Option.none, false⟩,
         ⟨[("_id", Val.vstr "b")], Option.none, false⟩] ∧
      ([⟨[("_id", Val.vstr "a")], Option.none, false⟩] : List PushRow) ≠ [] ∧
      envHead ++ "a" ++ envTail =
        envHead ++ encJoin (fun r => rowId r)
          [⟨[("_id", Val.vstr "a")], Option.none, false⟩] ++ envTail := by
  have hmem : (([⟨[("_id", Val.vstr "a")], Option.none, false⟩],
      envHead ++ "a" ++ envTail) : List PushRow × String) ∈
      pushToRemote (fun r => rowId r) 1
        [⟨[("_id", Val.vstr "a")], Option.none, false⟩,
         ⟨[("_id", Val.vstr "b")], Option.none, false⟩] :=
    List.mem_cons_self _ _
  have hbatch := (claim_C9_chunking_preserves_stream (fun r => rowId r) 1 7
      [⟨[("_id", Val.vstr "a")], Option.none, false⟩,
       ⟨[("_id", Val.vstr "b")], Option.none, false⟩]).2.1 _ hmem
  exact ⟨(claim_C9_chunking_preserves_stream (fun r => rowId r) 1 7
      [⟨[("_id", Val.vstr "a")], Option.none, false⟩,
       ⟨[("_id", Val.vstr "b")], Option.none, false⟩]).1, hbatch.1, hbatch.2⟩

theorem takeWhile_zip_of_all {p : PushRow × RecvItem → Bool} :
    ∀ (rows : List PushRow) (data : List RecvItem),
      rows.length = data.length →
      (∀ i (h1 : i < rows.length) (h2 : i < data.length),
        p (rows.get ⟨i, h1⟩, data.get ⟨i, h2⟩) = true) →
      ((rows.zip data).takeWhile p).map Prod.fst = rows := by
  intro rows
  induction rows with
  | nil => intro data _ _; rfl
  | cons r rs ih =>
      intro data hlen hall
      cases data with
      | nil => simp at hlen
      | cons d ds =>
          have h0 : p (r, d) = true := hall 0 (Nat.succ_pos _) (Nat.succ_pos _)
          simp only [List.zip_cons_cons, List.takeWhile_cons]
          rw [if_pos h0, List.map_cons]
          rw [ih ds (by simpa using hlen)
            (fun i h1 h2 => hall (i + 1) (Nat.succ_lt_succ h1) (Nat.succ_lt_succ h2))]

theorem takeWhile_zip_upto_mismatch {p : PushRow × RecvItem → Bool} :
    ∀ (k : Nat) (rows : List PushRow) (data : List RecvItem)
      (h1 : k < rows.length) (h2 : k < data.length),
      (∀ i (hi1 : i < rows.length) (hi2 : i < data.length), i < k →
        p (rows.get ⟨i, hi1⟩, data.get ⟨i, hi2⟩) = true) →
      p (rows.get ⟨k, h1⟩, data.get ⟨k, h2⟩) = false →
      ((rows.zip data).takeWhile p).map Prod.fst = rows.take k := by
  intro k
  induction k with
  | zero =>
      intro rows data h1 h2 _ hmis
      cases rows with
      | nil => simp at h1
      | cons r rs =>
          cases data with
          | nil => simp at h2
          | cons d ds =>
              have hmis' : p (r, d) = false := hmis
              simp only [List.zip_cons_cons, List.takeWhile_cons]
              rw [hmis']
              rfl
  | succ k ih =>
      intro rows data h1 h2 hbefore hmis
      cases rows with
      | nil => simp at h1
      | cons r rs =>
          cases data with
          | nil => simp at h2
          | cons d ds =>
              have h0 : p (r, d) = true :=
                hbefore 0 (Nat.succ_pos _) (Nat.succ_pos _) (Nat.succ_pos _)
              simp only [List.zip_cons_cons, List.takeWhile_cons]
              rw [if_pos h0, List.map_cons, List.take_succ_cons]
              rw [ih rs ds (Nat.lt_of_succ_lt_succ h1) (Nat.lt_of_succ_lt_succ h2)
                (fun i hi1 hi2 hik =>
                  hbefore (i + 1) (Nat.succ_lt_succ hi1) (Nat.succ_lt_succ hi2)
                    (Nat.succ_lt_succ hik))
                hmis]

/-- Claim C8, counterexample: a batch of two rows with ids `a`, `b`
receives items with ids `a`, `x` — a positional `_id` mismatch — yet the
first row is forwarded to the state-commit stage, contradicting the
claim that no row of such a batch is forwarded; and the pipeline records
no `error` flag at all (a state row carries only `id`, `rev`,
`pushed`). -/
theorem claim_C8_counterexample :
    sendAndReceive
        [⟨[("_id", Val.vstr "a")], Option.none, false⟩,
         ⟨[("_id", Val.vstr "b")], Option.none, false⟩]
        (Option.some [⟨"a"⟩, ⟨"x"⟩]) =
      [⟨[("_id", Val.vstr "a")], Option.none, false⟩] ∧
    sendAndReceive
        [⟨[("_id", Val.vstr "a")], Option.none, false⟩,
         ⟨[("_id", Val.vstr "b")], Option.none, false⟩]
        (Option.some [⟨"a"⟩, ⟨"x"⟩]) ≠ [] := by
  refine ⟨rfl, ?_⟩
  intro h
  rw [show sendAndReceive
      [⟨[("_id", Val.vstr "a")], Option.none, false⟩,
       ⟨[("_id", Val.vstr "b")], Option.none, false⟩]
      (Option.some [⟨"a"⟩, ⟨"x"⟩]) =
      [⟨[("_id", Val.vstr "a")], Option.none, false⟩] from rfl] at h
  exact List.cons_ne_nil _ _ h

/-- Claim C8, amended: after each POST, an HTTP failure or a response
`_data` of differing length forwards no row of the batch (so the push
state is unchanged — there is no `error` flag to set); a positional
`_id` mismatch at index `k` (with the earlier positions matching)
forwards exactly the first `k` rows; and when the length and every
positional `_id` match, every row of the batch is forwarded. -/
theorem claim_C8_send_and_receive (rows : List PushRow) (data : List RecvItem) :
    sendAndReceive rows Option.none = [] ∧
    (rows.length ≠ data.length → sendAndReceive rows (Option.some data) = []) ∧
    (rows.length = data.length →
      (∀ i (h1 : i < rows.length) (h2 : i < data.length),
        rowId (rows.get ⟨i, h1⟩) = (data.get ⟨i, h2⟩).id) →
      sendAndReceive rows (Option.some data) = rows) ∧
    (∀ k (h1 : k < rows.length) (h2 : k < data.length),
      rows.length = data.length →
      (∀ i (hi1 : i < rows.length) (hi2 : i < data.length), i < k →
        rowId (rows.get ⟨i, hi1⟩) = (data.get ⟨i, hi2⟩).id) →
      rowId (rows.get ⟨k, h1⟩) ≠ (data.get ⟨k, h2⟩).id →
      sendAndReceive rows (Option.some data) = rows.take k) ∧
    (∀ (now : Nat) (st : PushState),
      savePushState now st (sendAndReceive rows Option.none) = (st, [])) := by
  refine ⟨rfl, ?_, ?_, ?_, ?_⟩
  · intro hlen
    show (if rows.length = data.length then
        ((rows.zip data).takeWhile (fun p => rowId p.1 == p.2.id)).map Prod.fst
      else []) = []
    rw [if_neg hlen]
  · intro hlen hall
    show (if rows.length = data.length then
        ((rows.zip data).takeWhile (fun p => rowId p.1 == p.2.id)).map Prod.fst
      else []) = rows
    rw [if_pos hlen]
    exact takeWhile_zip_of_all rows data hlen
      (fun i h1 h2 => by
        have := hall i h1 h2
        simpa using this)
  · intro k h1 h2 hlen hbefore hmis
    show (if rows.length = data.length then
        ((rows.zip data).takeWhile (fun p => rowId p.1 == p.2.id)).map Prod.fst
      else []) = rows.take k
    rw [if_pos hlen]
    exact takeWhile_zip_upto_mismatch k rows data h1 h2
      (fun i hi1 hi2 hik => by
        have := hbefore i hi1 hi2 hik
        simpa using this)
      (by simpa using hmis)
  · intro now st
    rfl

/-- Claim C8, witness for the amended theorem: a matching batch is fully
forwarded, a short response drops it whole, and a mismatch at index 1
forwards exactly one row. -/
theorem claim_C8_witness :
    sendAndReceive
        [⟨[("_id", Val.vstr "a")], Option.none, false⟩,
         ⟨[("_id", Val.vstr "b")], Option.none, false⟩]
        (Option.some [⟨"a"⟩, ⟨"b"⟩]) =
      [⟨[("_id", Val.vstr "a")], Option.none, false⟩,
       ⟨[("_id", Val.vstr "b")], Option.none, false⟩] ∧
    sendAndReceive
        [⟨[("_id", Val.vstr "a")], Option.none, false⟩,
         ⟨[("_id", Val.vstr "b")], Option.none, false⟩]
        (Option.some [⟨"a"⟩]) = [] ∧
    sendAndReceive
        [⟨[("_id", Val.vstr "a")], Option.none, false⟩,
         ⟨[("_id", Val.vstr "b")], Option.none, false⟩]
        (Option.some [⟨"a"⟩, ⟨"x"⟩]) =
      List.take 1
        [⟨[("_id", Val.vstr "a")], Option.none, false⟩,
         ⟨[("_id", Val.vstr "b")], Option.none, false⟩] := by
  refine ⟨?_, ?_, ?_⟩
  · exact (claim_C8_send_and_receive
      [⟨[("_id", Val.vstr "a")], Option.none, false⟩,
       ⟨[("_id", Val.vstr "b")], Option.none, false⟩] [⟨"a"⟩, ⟨"b"⟩]).2.2.1 rfl
      (fun i h1 h2 => by
        have hi : i < 2 := h1
        interval_cases i <;> rfl)
  · exact (claim_C8_send_and_receive
      [⟨[("_id", Val.vstr "a")], Option.none, false⟩,
       ⟨[("_id", Val.vstr "b")], Option.none, false⟩] [⟨"a"⟩]).2.1 (by decide)
  · exact (claim_C8_send_and_receive
      [⟨[("_id", Val.vstr "a")], Option.none, false⟩,
       ⟨[("_id", Val.vstr "b")], Option.none, false⟩] [⟨"a"⟩, ⟨"x"⟩]).2.2.2.1 1
      (by decide) (by decide) rfl
      (fun i hi1 hi2 hik => by
        have hi : i < 1 := hik
        interval_cases i
        rfl)
      (by decide)

/-- The pointwise state-diff decision of `_check_push_state` for one
row: compute the checksum, drop the row when the stored checksum equals
it, otherwise pass it through with `rev` and `saved` set. -/
def checkDecision (msgpackDumps : List (String × Val) → List Nat)
    (sha1hex : List Nat → String) (st : PushState) (r : PushRow) :
    Option PushRow :=
  let rev := pushChecksum msgpackDumps sha1hex r.data
  if savedGet (getTable st (rowType r)) (rowId r) = Option.some rev then
    Option.none
  else
    Option.some { r with rev := Option.some rev,
                         saved := savedHas (getTable st (rowType r)) (rowId r) }

theorem pyGroupBy_flatten (keyf : PushRow → String) :
    ∀ rows : List PushRow, ((pyGroupBy keyf rows).map Prod.snd).flatten = rows := by
  intro rows
  induction rows with
  | nil => rfl
  | cons r rest ih =>
      unfold pyGroupBy
      cases hg : pyGroupBy keyf rest with
      | nil =>
          rw [hg] at ih
          simp at ih
          simp [ih]
      | cons g gs =>
          obtain ⟨k, grp⟩ := g
          rw [hg] at ih
          dsimp only
          by_cases hk : keyf r = k
          · rw [if_pos hk]
            simp only [List.map_cons, List.flatten_cons] at ih ⊢
            rw [List.cons_append, ih]
          · rw [if_neg hk]
            simp only [List.map_cons, List.flatten_cons] at ih ⊢
            rw [ih]
            rfl

theorem pyGroupBy_key (keyf : PushRow → String) :
    ∀ (rows : List PushRow) (g : String × List PushRow),
      g ∈ pyGroupBy keyf rows → ∀ r ∈ g.2, keyf r = g.1 := by
  intro rows
  induction rows with
  | nil => intro g hg; simp [pyGroupBy] at hg
  | cons r rest ih =>
      intro g hg s hs
      unfold pyGroupBy at hg
      cases hgrp : pyGroupBy keyf rest with
      | nil =>
          rw [hgrp] at hg
          rw [List.mem_singleton] at hg
          subst hg
          rw [List.mem_singleton] at hs
          subst hs
          rfl
      | cons g0 gs =>
          obtain ⟨k, grp⟩ := g0
          rw [hgrp] at hg
          dsimp only at hg
          by_cases hk : keyf r = k
          · rw [if_pos hk] at hg
            rcases List.mem_cons.mp hg with hg | hg
            · subst hg
              rcases List.mem_cons.mp hs with hs | hs
              · subst hs; exact hk
              · exact ih (k, grp) (hgrp ▸ List.mem_cons_self _ _) s hs
            · exact ih g (hgrp ▸ List.mem_cons_of_mem _ hg) s hs
          · rw [if_neg hk] at hg
            rcases List.mem_cons.mp hg with hg | hg
            · subst hg
              rw [List.mem_singleton] at hs
              subst hs
              rfl
            · exact ih g (hgrp ▸ hg) s hs

theorem checkGroup_eq_filterMap (msgpackDumps : List (String × Val) → List Nat)
    (sha1hex : List Nat → String) (saved : List StateRow) :
    ∀ g : List PushRow,
      checkGroup msgpackDumps sha1hex saved g = g.filterMap (fun r =>
        if savedGet saved (rowId r) =
            Option.some (pushChecksum msgpackDumps sha1hex r.data) then
          Option.none
        else
          Option.some { r with
            rev := Option.some (pushChecksum msgpackDumps sha1hex r.data),
            saved := savedHas saved (rowId r) }) := by
  intro g
  induction g with
  | nil => rfl
  | cons r rest ih =>
      unfold checkGroup
      by_cases h : savedGet saved (rowId r) =
          Option.some (pushChecksum msgpackDumps sha1hex r.data)
      · rw [if_pos h, ih, List.filterMap_cons, if_pos h]
      · rw [if_neg h, ih, List.filterMap_cons, if_neg h]

theorem filterMap_congr_mem {α β : Type} (f g : α → Option β) :
    ∀ l : List α, (∀ a ∈ l, f a = g a) → l.filterMap f = l.filterMap g := by
  intro l
  induction l with
  | nil => intro _; rfl
  | cons a rest ih =>
      intro h
      rw [List.filterMap_cons, List.filterMap_cons,
        h a (List.mem_cons_self a rest), ih (fun b hb => h b (List.mem_cons_of_mem a hb))]

theorem flatMap_congr_mem {α β : Type} (f g : α → List β) :
    ∀ l : List α, (∀ a ∈ l, f a = g a) → l.flatMap f = l.flatMap g := by
  intro l
  induction l with
  | nil => intro _; rfl
  | cons a rest ih =>
      intro h
      rw [List.flatMap_cons, List.flatMap_cons,
        h a (List.mem_cons_self a rest), ih (fun b hb => h b (List.mem_cons_of_mem a hb))]

theorem flatMap_filterMap_groups (f : PushRow → Option PushRow) :
    ∀ gs : List (String × List PushRow),
      gs.flatMap (fun g => g.2.filterMap f) =
        ((gs.map Prod.snd).flatten).filterMap f := by
  intro gs
  induction gs with
  | nil => rfl
  | cons g rest ih =>
      rw [List.flatMap_cons, List.map_cons, List.flatten_cons,
        List.filterMap_append, ih]

/-- Claim C1: with a state database, `_check_push_state` passes through
exactly the rows whose stored checksum is absent or differs — each with
`rev` set to `sha1(msgpack(sorted-flat-pairs(flatten([fix(take(row.data))]))))`
and `saved` set — and drops exactly the rows whose stored checksum equals
the freshly computed one; the groupwise processing equals this pointwise
decision. -/
theorem claim_C1_check_push_state (msgpackDumps : List (String × Val) → List Nat)
    (sha1hex : List Nat → String) (st : PushState) (rows : List PushRow) :
    checkPushState msgpackDumps sha1hex st rows =
      rows.filterMap (checkDecision msgpackDumps sha1hex st) := by
  unfold checkPushState
  have hgroups : ∀ g ∈ pyGroupBy rowType rows,
      checkGroup msgpackDumps sha1hex (getTable st g.1) g.2 =
        g.2.filterMap (checkDecision msgpackDumps sha1hex st) := by
    intro g hg
    rw [checkGroup_eq_filterMap]
    refine filterMap_congr_mem _ _ g.2 ?_
    intro r hr
    have hk : rowType r = g.1 := pyGroupBy_key rowType rows g hg r hr
    unfold checkDecision
    rw [hk]
  calc (pyGroupBy rowType rows).flatMap
        (fun g => checkGroup msgpackDumps sha1hex (getTable st g.1) g.2)
      = (pyGroupBy rowType rows).flatMap
          (fun g => g.2.filterMap (checkDecision msgpackDumps sha1hex st)) :=
        flatMap_congr_mem _ _ _ hgroups
    _ = rows.filterMap (checkDecision msgpackDumps sha1hex st) := by
        rw [flatMap_filterMap_groups, pyGroupBy_flatten]

/-- Claim C2, code-bug evidence.  Failing input: one row of model `m`
with id `a`, accepted by the remote.  The state store of
`src/spinta/cli/push.py` has only the columns `id`, `rev`, `pushed`; the
committed `rev` is the locally computed checksum (here the constant
`"LOCALSHA1"` hash), not a remote `_revision` — `_send_and_receive` never
even reads one — and on an HTTP failure nothing reaches the commit stage,
so the state is unchanged and nothing is marked `error=true` (no such
column exists).  The repository's own tests
(`tests/test_push.py::test_push_state__create` and
`::test_push_state__create_error`) assert the claimed behaviour against a
state schema with `revision` and `error` columns, which this `push.py`
does not have. -/
theorem claim_C2_code_bug :
    (savePushState 7 (initPushState ["m"])
        (sendAndReceive
          (checkPushState (fun _ => [0]) (fun _ => "LOCALSHA1") (initPushState ["m"])
            [⟨[("_type", Val.vstr "m"), ("_id", Val.vstr "a"),
               ("title", Val.vstr "t")], Option.none, false⟩])
          (Option.some [⟨"a"⟩]))).1 =
      [⟨"m", [⟨"a", Option.some "LOCALSHA1", 7⟩]⟩] ∧
    (savePushState 7 (initPushState ["m"])
        (sendAndReceive
          (checkPushState (fun _ => [0]) (fun _ => "LOCALSHA1") (initPushState ["m"])
            [⟨[("_type", Val.vstr "m"), ("_id", Val.vstr "a"),
               ("title", Val.vstr "t")], Option.none, false⟩])
          Option.none)).1 =
      initPushState ["m"] := by
  constructor <;> rfl

/-! ### Size bookkeeping for `flatten`'s recursion -/

/-- Weight of the collected `lists` component of `_flatten`. -/
def wL (ls : List (List String × List Val)) : Nat :=
  (ls.map (fun p => 1 + sizeValList p.2)).sum

theorem sizeVal_pos (v : Val) : 1 ≤ sizeVal v := by
  cases v <;> simp [sizeVal]

theorem sizeValList_mem {l : List Val} {v : Val} (h : v ∈ l) :
    1 + sizeVal v ≤ sizeValList l := by
  induction l with
  | nil => simp at h
  | cons a rest ih =>
      rcases List.mem_cons.mp h with h | h
      · subst h; simp [sizeValList]
      · have := ih h
        simp only [sizeValList]
        omega

theorem sizeValDict_mem {l : List (String × Val)} {p : String × Val} (h : p ∈ l) :
    1 + sizeVal p.2 ≤ sizeValDict l := by
  induction l with
  | nil => simp at h
  | cons a rest ih =>
      rcases List.mem_cons.mp h with h | h
      · subst h
        obtain ⟨k, v⟩ := p
        simp [sizeValDict]
      · have := ih h
        obtain ⟨k, v⟩ := a
        simp only [sizeValDict]
        omega

theorem sizeValDict_pySet (d : List (String × Val)) (k : String) (v : Val) :
    sizeValDict (pySet d k v) ≤ sizeValDict d + 1 + sizeVal v := by
  induction d with
  | nil => simp [pySet, sizeValDict]
  | cons a rest ih =>
      obtain ⟨k', v'⟩ := a
      by_cases hk : k' = k
      · simp only [pySet, if_pos hk, sizeValDict]
        have := sizeVal_pos v'
        omega
      · simp only [pySet, if_neg hk, sizeValDict]
        omega

theorem sizeValDict_pyUpdate (d u : List (String × Val)) :
    sizeValDict (pyUpdate d u) ≤ sizeValDict d + sizeValDict u := by
  induction u generalizing d with
  | nil => simp [pyUpdate, sizeValDict]
  | cons a rest ih =>
      obtain ⟨k, v⟩ := a
      simp only [pyUpdate, sizeValDict]
      calc sizeValDict (pyUpdate (pySet d k v) rest)
          ≤ sizeValDict (pySet d k v) + sizeValDict rest := ih _
        _ ≤ (sizeValDict d + 1 + sizeVal v) + sizeValDict rest := by
            have := sizeValDict_pySet d k v
            omega
        _ = sizeValDict d + (1 + sizeVal v + sizeValDict rest) := by omega

theorem wL_append (a b : List (List String × List Val)) :
    wL (a ++ b) = wL a + wL b := by
  simp [wL]

theorem wL_mem {ls : List (List String × List Val)} {p : List String × List Val}
    (h : p ∈ ls) : 1 + sizeValList p.2 ≤ wL ls := by
  induction ls with
  | nil => simp at h
  | cons a rest ih =>
      rcases List.mem_cons.mp h with h | h
      · subst h; simp [wL]
      · have := ih h
        simp only [wL, List.map_cons, List.sum_cons] at this ⊢
        omega

theorem pyFlattenDict_nil (key : List String) (data : List (String × Val))
    (lists : List (List String × List Val)) :
    pyFlattenDict [] key data lists = (Option.some data, lists) := by
  simp [pyFlattenDict]

theorem pyFlattenDict_cons_none (k : String) (rest : List (String × Val))
    (key : List String) (data : List (String × Val))
    (lists : List (List String × List Val)) :
    pyFlattenDict ((k, Val.vnone) :: rest) key data lists =
      pyFlattenDict rest key data lists := by
  simp [pyFlattenDict]

theorem pyFlattenDict_cons_ne (k : String) (v : Val) (hv : v ≠ Val.vnone)
    (rest : List (String × Val)) (key : List String)
    (data : List (String × Val)) (lists : List (List String × List Val)) :
    pyFlattenDict ((k, v) :: rest) key data lists =
      pyFlattenDict rest key
        (pyUpdate data ((pyFlattenAux v (key ++ [k])).1.getD []))
        (lists ++ (pyFlattenAux v (key ++ [k])).2) := by
  cases v <;> first | exact absurd rfl hv | simp [pyFlattenDict]

theorem pyFlattenDict_bound_aux :
    ∀ (entries : List (String × Val)) (key : List String)
      (data : List (String × Val)) (lists : List (List String × List Val)),
      (∀ p ∈ entries, ∀ key' : List String,
        sizeValDict ((pyFlattenAux p.2 key').1.getD []) +
          wL (pyFlattenAux p.2 key').2 ≤ 1 + sizeVal p.2) →
      sizeValDict ((pyFlattenDict entries key data lists).1.getD []) +
          wL (pyFlattenDict entries key data lists).2 ≤
        sizeValDict entries + sizeValDict data + wL lists := by
  intro entries
  induction entries with
  | nil =>
      intro key data lists _
      simp [pyFlattenDict_nil, sizeValDict]
  | cons a rest ih =>
      intro key data lists haux
      obtain ⟨k, v⟩ := a
      by_cases hv : v = Val.vnone
      · subst hv
        have := ih key data lists
          (fun p hp => haux p (List.mem_cons_of_mem _ hp))
        rw [pyFlattenDict_cons_none]
        simp only [sizeValDict, sizeVal] at this ⊢
        omega
      · rw [pyFlattenDict_cons_ne k v hv]
        have hchild := haux (k, v) (List.mem_cons_self _ _) (key ++ [k])
        dsimp only at hchild
        have hrec := ih key
          (pyUpdate data ((pyFlattenAux v (key ++ [k])).1.getD []))
          (lists ++ (pyFlattenAux v (key ++ [k])).2)
          (fun p hp => haux p (List.mem_cons_of_mem _ hp))
        have hupd := sizeValDict_pyUpdate data
          ((pyFlattenAux v (key ++ [k])).1.getD [])
        rw [wL_append] at hrec
        simp only [sizeValDict] at hrec ⊢
        omega

theorem pyFlattenAux_vdict (entries : List (String × Val)) (key : List String) :
    pyFlattenAux (Val.vdict entries) key = pyFlattenDict entries key [] [] := by
  simp [pyFlattenAux]

theorem pyFlattenAux_bound :
    ∀ (n : Nat) (v : Val) (key : List String), sizeVal v ≤ n →
      sizeValDict ((pyFlattenAux v key).1.getD []) + wL (pyFlattenAux v key).2 ≤
        1 + sizeVal v := by
  intro n
  induction n with
  | zero =>
      intro v key h
      have := sizeVal_pos v
      omega
  | succ n ih =>
      intro v key h
      cases v with
      | vnone => simp [pyFlattenAux, sizeValDict, wL]
      | vbool b => simp [pyFlattenAux, sizeValDict, wL, sizeVal]
      | vint i => simp [pyFlattenAux, sizeValDict, wL, sizeVal]
      | vstr s => simp [pyFlattenAux, sizeValDict, wL, sizeVal]
      | vdate s => simp [pyFlattenAux, sizeValDict, wL, sizeVal]
      | vlist l =>
          cases l with
          | nil => simp [pyFlattenAux, sizeValDict, wL]
          | cons x xs =>
              simp only [pyFlattenAux, sizeValDict, wL, List.map_cons,
                List.map_nil, List.sum_cons, List.sum_nil, sizeVal]
              omega
      | vdict entries =>
          rw [pyFlattenAux_vdict]
          have hsz : sizeVal (Val.vdict entries) = 1 + sizeValDict entries := by
            simp [sizeVal]
          have hb := pyFlattenDict_bound_aux entries key [] []
            (fun p hp key' => by
              have hmem := sizeValDict_mem hp
              exact ih p.2 key' (by omega))
          have h0 : sizeValDict ([] : List (String × Val)) = 0 := rfl
          have h1 : wL [] = 0 := rfl
          rw [h0, h1] at hb
          omega

theorem mem_lists_size {v : Val} {key : List String}
    {q : List String × List Val} {w : Val}
    (hq : q ∈ (pyFlattenAux v key).2) (hw : w ∈ q.2) :
    sizeVal w < sizeVal v := by
  have hb := pyFlattenAux_bound (sizeVal v) v key le_rfl
  have h1 := wL_mem hq
  have h2 := sizeValList_mem hw
  omega

/-- When `_flatten` returns a dict together with a non-empty list
collection, the input value was a dict. -/
theorem aux_some_cons_is_vdict {v : Val} {key : List String}
    {d : List (String × Val)} {p : List String × List Val}
    {ps : List (List String × List Val)}
    (h : pyFlattenAux v key = (Option.some d, p :: ps)) :
    ∃ entries, v = Val.vdict entries := by
  cases v with
  | vdict entries => exact ⟨entries, rfl⟩
  | vnone => simp [pyFlattenAux] at h
  | vbool b => simp [pyFlattenAux] at h
  | vint i => simp [pyFlattenAux] at h
  | vstr s => simp [pyFlattenAux] at h
  | vdate s => simp [pyFlattenAux] at h
  | vlist l =>
      cases l with
      | nil => simp [pyFlattenAux] at h
      | cons x xs => simp [pyFlattenAux] at h

/-- Weight of the zipped `(joined key, chosen value)` pairs fed to the
dict comprehension. -/
def wPairs (pairs : List (List String × Val)) : Nat :=
  (pairs.map (fun q => 1 + sizeVal q.2)).sum

theorem buildComb_cons_none (acc : List (String × Val)) (ks : List String)
    (rest : List (List String × Val)) :
    buildComb acc ((ks, Val.vnone) :: rest) = buildComb acc rest := by
  simp [buildComb]

theorem buildComb_cons_ne (acc : List (String × Val)) (ks : List String)
    (v : Val) (hv : v ≠ Val.vnone) (rest : List (List String × Val)) :
    buildComb acc ((ks, v) :: rest) =
      buildComb (pySet acc (String.intercalate "." ks) v) rest := by
  cases v <;> first | exact absurd rfl hv | simp [buildComb]

theorem buildComb_bound (pairs : List (List String × Val)) :
    ∀ acc, sizeValDict (buildComb acc pairs) ≤ sizeValDict acc + wPairs pairs := by
  induction pairs with
  | nil => intro acc; simp [buildComb, wPairs]
  | cons q rest ih =>
      intro acc
      obtain ⟨ks, v⟩ := q
      by_cases hv : v = Val.vnone
      · subst hv
        rw [buildComb_cons_none]
        have := ih acc
        simp only [wPairs, List.map_cons, List.sum_cons] at this ⊢
        omega
      · rw [buildComb_cons_ne acc ks v hv]
        refine le_trans (ih _) ?_
        have := sizeValDict_pySet acc (String.intercalate "." ks) v
        simp only [wPairs, List.map_cons, List.sum_cons]
        omega

theorem pyProduct_forall2 :
    ∀ (lls : List (List Val)) (vals : List Val), vals ∈ pyProduct lls →
      List.Forall₂ (fun v vs => v ∈ vs) vals lls := by
  intro lls
  induction lls with
  | nil =>
      intro vals h
      simp only [pyProduct, List.mem_singleton] at h
      subst h
      exact List.Forall₂.nil
  | cons l rest ih =>
      intro vals h
      simp only [pyProduct, List.mem_flatMap, List.mem_map] at h
      obtain ⟨x, hx, t, ht, rfl⟩ := h
      exact List.Forall₂.cons hx (ih t ht)

theorem zip_weight :
    ∀ (ls : List (List String × List Val)) (vals : List Val),
      List.Forall₂ (fun v vs => v ∈ vs) vals (ls.map Prod.snd) →
      wPairs ((ls.map Prod.fst).zip vals) + ls.length ≤ wL ls := by
  intro ls
  induction ls with
  | nil =>
      intro vals h
      cases h
      simp [wPairs, wL]
  | cons p rest ih =>
      intro vals h
      obtain ⟨ks, vs⟩ := p
      rw [List.map_cons] at h
      cases h with
      | cons hmem htail =>
          rename_i v vt
          have h1 : 1 + sizeVal v ≤ sizeValList vs := sizeValList_mem hmem
          have h2 := ih vt htail
          simp only [List.map_cons, List.zip_cons_cons, wPairs, List.sum_cons,
            List.map_cons, List.length_cons, wL] at h2 ⊢
          omega

/-- The value recursed on in the product branch of `flatten` is strictly
smaller than the dict it came from. -/
theorem productStepSize {entries : List (String × Val)} {key : List String}
    {d : List (String × Val)} {ls : List (List String × List Val)}
    (haux : pyFlattenAux (Val.vdict entries) key = (Option.some d, ls))
    (hls : ls ≠ []) {vals : List Val} (hv : vals ∈ pyProduct (ls.map Prod.snd)) :
    sizeVal (Val.vdict (pyUpdate (buildComb [] ((ls.map Prod.fst).zip vals)) d)) <
      sizeVal (Val.vdict entries) := by
  have hb := pyFlattenDict_bound_aux entries key [] []
    (fun p hp key' => pyFlattenAux_bound (sizeVal p.2) p.2 key' le_rfl)
  rw [← pyFlattenAux_vdict, haux] at hb
  have h0 : sizeValDict ([] : List (String × Val)) = 0 := rfl
  have h1 : wL [] = 0 := rfl
  rw [h0, h1] at hb
  simp only [Option.getD_some] at hb
  have hzip := zip_weight ls vals (pyProduct_forall2 _ vals hv)
  have hbuild := buildComb_bound ((ls.map Prod.fst).zip vals) []
  have hupd := sizeValDict_pyUpdate (buildComb [] ((ls.map Prod.fst).zip vals)) d
  have hlen : 1 ≤ ls.length := by
    cases ls with
    | nil => exact absurd rfl hls
    | cons a b => simp
  have hs1 : sizeVal (Val.vdict (pyUpdate (buildComb [] ((ls.map Prod.fst).zip vals)) d)) =
      1 + sizeValDict (pyUpdate (buildComb [] ((ls.map Prod.fst).zip vals)) d) := by
    simp [sizeVal]
  have hs2 : sizeVal (Val.vdict entries) = 1 + sizeValDict entries := by
    simp [sizeVal]
  simp only [sizeValDict] at hbuild
  omega

/-- Any fuel of at least `sizeVal v` computes the same `flatten` result,
so `pyFlatten`'s fuel choice is adequate. -/
theorem flattenFuel_adequate : ∀ (f : Nat) (v : Val), sizeVal v ≤ f →
    flattenFuel f v = pyFlatten v := by
  intro f
  induction f using Nat.strong_induction_on with
  | _ f ih =>
      intro v hf
      obtain ⟨g, rfl⟩ : ∃ g, f = g + 1 :=
        ⟨f - 1, by have := sizeVal_pos v; omega⟩
      obtain ⟨m, hm⟩ : ∃ m, sizeVal v = m + 1 :=
        ⟨sizeVal v - 1, by have := sizeVal_pos v; omega⟩
      have hmg : m ≤ g := by omega
      rw [pyFlatten, hm]
      show flattenFuel (g + 1) v = flattenFuel (m + 1) v
      simp only [flattenFuel]
      cases haux : pyFlattenAux v [] with
      | mk o ls =>
          cases o with
          | none =>
              apply flatMap_congr_mem
              intro kvs hkvs
              apply flatMap_congr_mem
              intro w hw
              have hsz : sizeVal w < sizeVal v :=
                @mem_lists_size v [] kvs w (by rw [haux]; exact hkvs) hw
              cases w with
              | vnone => rfl
              | vbool b =>
                  show flattenFuel g _ = flattenFuel m _
                  rw [ih g (by omega) _ (by omega), ih m (by omega) _ (by omega)]
              | vint i =>
                  show flattenFuel g _ = flattenFuel m _
                  rw [ih g (by omega) _ (by omega), ih m (by omega) _ (by omega)]
              | vstr s =>
                  show flattenFuel g _ = flattenFuel m _
                  rw [ih g (by omega) _ (by omega), ih m (by omega) _ (by omega)]
              | vdate s =>
                  show flattenFuel g _ = flattenFuel m _
                  rw [ih g (by omega) _ (by omega), ih m (by omega) _ (by omega)]
              | vlist l =>
                  show flattenFuel g _ = flattenFuel m _
                  rw [ih g (by omega) _ (by omega), ih m (by omega) _ (by omega)]
              | vdict l =>
                  show flattenFuel g _ = flattenFuel m _
                  rw [ih g (by omega) _ (by omega), ih m (by omega) _ (by omega)]
          | some d =>
              cases ls with
              | nil => rfl
              | cons p ps =>
                  apply flatMap_congr_mem
                  intro vals hvals
                  obtain ⟨entries, rfl⟩ := aux_some_cons_is_vdict haux
                  have hsz := productStepSize haux (List.cons_ne_nil p ps) hvals
                  rw [ih g (by omega) _ (by omega), ih m (by omega) _ (by omega)]

/-! ### None-stripping: the normal form `flatten` cannot distinguish -/

mutual

/-- Remove every dict entry whose value is `None`, at all depths. -/
def stripNones : Val → Val
  | .vlist l => .vlist (stripNonesList l)
  | .vdict l => .vdict (stripNonesDict l)
  | v => v

def stripNonesList : List Val → List Val
  | [] => []
  | v :: rest => stripNones v :: stripNonesList rest

def stripNonesDict : List (String × Val) → List (String × Val)
  | [] => []
  | (k, v) :: rest =>
      match v with
      | .vnone => stripNonesDict rest
      | _ => (k, stripNones v) :: stripNonesDict rest

end

/-- A value that is neither `None` nor a container; the `data` component
of `_flatten` holds only such values. -/
def isScalar : Val → Bool
  | .vnone => false
  | .vlist _ => false
  | .vdict _ => false
  | _ => true

/-- Strip the list components of the collected `lists` of `_flatten`. -/
def mapStripVs (ls : List (List String × List Val)) :
    List (List String × List Val) :=
  ls.map (fun p => (p.1, stripNonesList p.2))

theorem stripNones_vnone_iff (v : Val) :
    stripNones v = Val.vnone ↔ v = Val.vnone := by
  cases v <;> simp [stripNones]

theorem stripNonesList_eq_map (l : List Val) :
    stripNonesList l = l.map stripNones := by
  induction l with
  | nil => simp [stripNonesList]
  | cons v rest ih => simp [stripNonesList, ih]

theorem stripNonesDict_nil : stripNonesDict [] = [] := by
  simp [stripNonesDict]

theorem stripNonesDict_cons_none (k : String) (rest : List (String × Val)) :
    stripNonesDict ((k, Val.vnone) :: rest) = stripNonesDict rest := by
  simp [stripNonesDict]

theorem stripNonesDict_cons_ne (k : String) (v : Val) (hv : v ≠ Val.vnone)
    (rest : List (String × Val)) :
    stripNonesDict ((k, v) :: rest) =
      (k, stripNones v) :: stripNonesDict rest := by
  cases v <;> first | exact absurd rfl hv | simp [stripNones, stripNonesDict]

theorem isScalar_strip_fix {v : Val} (h : isScalar v = true) :
    stripNones v = v ∧ v ≠ Val.vnone := by
  cases v <;> simp_all [isScalar, stripNones]

theorem mapStripVs_append (a b : List (List String × List Val)) :
    mapStripVs (a ++ b) = mapStripVs a ++ mapStripVs b := by
  simp [mapStripVs]

theorem pyFlattenDict_strip_aux :
    ∀ (entries : List (String × Val)) (key : List String)
      (data : List (String × Val)) (lists : List (List String × List Val)),
      (∀ p ∈ entries, ∀ key' : List String,
        pyFlattenAux (stripNones p.2) key' =
          ((pyFlattenAux p.2 key').1, mapStripVs (pyFlattenAux p.2 key').2)) →
      pyFlattenDict (stripNonesDict entries) key data (mapStripVs lists) =
        ((pyFlattenDict entries key data lists).1,
          mapStripVs (pyFlattenDict entries key data lists).2) := by
  intro entries
  induction entries with
  | nil =>
      intro key data lists _
      rw [stripNonesDict_nil, pyFlattenDict_nil, pyFlattenDict_nil]
  | cons a rest ih =>
      intro key data lists haux
      obtain ⟨k, v⟩ := a
      by_cases hv : v = Val.vnone
      · subst hv
        rw [stripNonesDict_cons_none, pyFlattenDict_cons_none,
          ih key data lists (fun p hp => haux p (List.mem_cons_of_mem _ hp))]
      · have hv' : stripNones v ≠ Val.vnone :=
          fun h => hv ((stripNones_vnone_iff v).mp h)
        rw [stripNonesDict_cons_ne k v hv, pyFlattenDict_cons_ne k (stripNones v) hv',
          pyFlattenDict_cons_ne k v hv]
        have hchild := haux (k, v) (List.mem_cons_self _ _) (key ++ [k])
        dsimp only at hchild
        rw [hchild]
        show pyFlattenDict (stripNonesDict rest) key
            (pyUpdate data ((pyFlattenAux v (key ++ [k])).1.getD []))
            (mapStripVs lists ++ mapStripVs (pyFlattenAux v (key ++ [k])).2) = _
        rw [← mapStripVs_append,
          ih key (pyUpdate data ((pyFlattenAux v (key ++ [k])).1.getD []))
            (lists ++ (pyFlattenAux v (key ++ [k])).2)
            (fun p hp => haux p (List.mem_cons_of_mem _ hp))]

/-- `_flatten` on a stripped value: the flat `data` is unchanged and the
collected lists are stripped elementwise. -/
theorem pyFlattenAux_strip :
    ∀ (n : Nat) (v : Val) (key : List String), sizeVal v ≤ n →
      pyFlattenAux (stripNones v) key =
        ((pyFlattenAux v key).1, mapStripVs (pyFlattenAux v key).2) := by
  intro n
  induction n with
  | zero =>
      intro v key h
      have := sizeVal_pos v
      omega
  | succ n ih =>
      intro v key h
      cases v with
      | vnone => rfl
      | vbool b => rfl
      | vint i => rfl
      | vstr s => rfl
      | vdate s => rfl
      | vlist l =>
          cases l with
          | nil => simp [stripNones, stripNonesList, pyFlattenAux, mapStripVs]
          | cons x xs =>
              simp [stripNones, stripNonesList, pyFlattenAux, mapStripVs]
      | vdict entries =>
          have hstrip : stripNones (Val.vdict entries) =
              Val.vdict (stripNonesDict entries) := by
            simp [stripNones]
          rw [hstrip, pyFlattenAux_vdict, pyFlattenAux_vdict]
          have : mapStripVs [] = [] := rfl
          rw [← this]
          exact pyFlattenDict_strip_aux entries key [] []
            (fun p hp key' => by
              have hmem := sizeValDict_mem hp
              have hsz : sizeVal (Val.vdict entries) = 1 + sizeValDict entries := by
                simp [sizeVal]
              exact ih p.2 key' (by omega))

/-- Strip the value of one dict pair. -/
def valStrip (p : String × Val) : String × Val := (p.1, stripNones p.2)

theorem pySet_forall (P : Val → Prop) (d : List (String × Val)) (k : String)
    (v : Val) (hd : ∀ p ∈ d, P p.2) (hv : P v) :
    ∀ p ∈ pySet d k v, P p.2 := by
  induction d with
  | nil =>
      intro p hp
      simp only [pySet, List.mem_singleton] at hp
      subst hp
      exact hv
  | cons a rest ih =>
      intro p hp
      obtain ⟨k', v'⟩ := a
      by_cases hk : k' = k
      · rw [pySet, if_pos hk] at hp
        rcases List.mem_cons.mp hp with hp | hp
        · subst hp; exact hv
        · exact hd p (List.mem_cons_of_mem _ hp)
      · rw [pySet, if_neg hk] at hp
        rcases List.mem_cons.mp hp with hp | hp
        · subst hp; exact hd (k', v') (List.mem_cons_self _ _)
        · exact ih (fun q hq => hd q (List.mem_cons_of_mem _ hq)) p hp

theorem pyUpdate_forall (P : Val → Prop) :
    ∀ (u d : List (String × Val)), (∀ p ∈ d, P p.2) → (∀ p ∈ u, P p.2) →
      ∀ p ∈ pyUpdate d u, P p.2 := by
  intro u
  induction u with
  | nil => intro d hd _; exact hd
  | cons a rest ih =>
      intro d hd hu
      obtain ⟨k, v⟩ := a
      rw [pyUpdate]
      exact ih (pySet d k v)
        (pySet_forall P d k v hd (hu (k, v) (List.mem_cons_self _ _)))
        (fun q hq => hu q (List.mem_cons_of_mem _ hq))

theorem pyFlattenDict_scalars_aux :
    ∀ (entries : List (String × Val)) (key : List String)
      (data : List (String × Val)) (lists : List (List String × List Val)),
      (∀ p ∈ entries, ∀ key' : List String,
        ∀ q ∈ (pyFlattenAux p.2 key').1.getD [], isScalar q.2 = true) →
      (∀ q ∈ data, isScalar q.2 = true) →
      ∀ q ∈ (pyFlattenDict entries key data lists).1.getD [],
        isScalar q.2 = true := by
  intro entries
  induction entries with
  | nil =>
      intro key data lists _ hdata
      rw [pyFlattenDict_nil]
      exact hdata
  | cons a rest ih =>
      intro key data lists haux hdata
      obtain ⟨k, v⟩ := a
      by_cases hv : v = Val.vnone
      · subst hv
        rw [pyFlattenDict_cons_none]
        exact ih key data lists
          (fun p hp => haux p (List.mem_cons_of_mem _ hp)) hdata
      · rw [pyFlattenDict_cons_ne k v hv]
        refine ih key _ _ (fun p hp => haux p (List.mem_cons_of_mem _ hp)) ?_
        refine pyUpdate_forall (fun x => isScalar x = true) _ data hdata ?_
        have := haux (k, v) (List.mem_cons_self _ _) (key ++ [k])
        exact this

/-- Every value in the flat `data` component of `_flatten` is a scalar. -/
theorem pyFlattenAux_scalars :
    ∀ (n : Nat) (v : Val) (key : List String), sizeVal v ≤ n →
      ∀ q ∈ (pyFlattenAux v key).1.getD [], isScalar q.2 = true := by
  intro n
  induction n with
  | zero =>
      intro v key h
      have := sizeVal_pos v
      omega
  | succ n ih =>
      intro v key h
      cases v with
      | vnone => intro q hq; simp [pyFlattenAux] at hq
      | vbool b =>
          intro q hq
          simp only [pyFlattenAux, Option.getD_some, List.mem_singleton] at hq
          subst hq
          rfl
      | vint i =>
          intro q hq
          simp only [pyFlattenAux, Option.getD_some, List.mem_singleton] at hq
          subst hq
          rfl
      | vstr s =>
          intro q hq
          simp only [pyFlattenAux, Option.getD_some, List.mem_singleton] at hq
          subst hq
          rfl
      | vdate s =>
          intro q hq
          simp only [pyFlattenAux, Option.getD_some, List.mem_singleton] at hq
          subst hq
          rfl
      | vlist l =>
          intro q hq
          cases l with
          | nil => simp [pyFlattenAux] at hq
          | cons x xs => simp [pyFlattenAux] at hq
      | vdict entries =>
          rw [pyFlattenAux_vdict]
          refine pyFlattenDict_scalars_aux entries key [] []
            (fun p hp key' => by
              have hmem := sizeValDict_mem hp
              have hsz : sizeVal (Val.vdict entries) = 1 + sizeValDict entries := by
                simp [sizeVal]
              exact ih p.2 key' (by omega))
            (by intro q hq; simp at hq)

theorem pySet_map_strip (d : List (String × Val)) (k : String) (v : Val) :
    (pySet d k v).map valStrip = pySet (d.map valStrip) k (stripNones v) := by
  induction d with
  | nil => simp [pySet, valStrip]
  | cons a rest ih =>
      obtain ⟨k', v'⟩ := a
      by_cases hk : k' = k
      · simp [pySet, if_pos hk, valStrip]
      · simp [pySet, if_neg hk, valStrip, ih]

theorem pyUpdate_map_strip :
    ∀ (u d : List (String × Val)),
      (pyUpdate d u).map valStrip = pyUpdate (d.map valStrip) (u.map valStrip) := by
  intro u
  induction u with
  | nil => intro d; simp [pyUpdate]
  | cons a rest ih =>
      intro d
      obtain ⟨k, v⟩ := a
      show (pyUpdate (pySet d k v) rest).map valStrip = _
      rw [ih (pySet d k v), pySet_map_strip]
      rfl

theorem buildComb_map_strip :
    ∀ (pairs : List (List String × Val)) (acc : List (String × Val)),
      (buildComb acc pairs).map valStrip =
        buildComb (acc.map valStrip)
          (pairs.map (fun q => (q.1, stripNones q.2))) := by
  intro pairs
  induction pairs with
  | nil => intro acc; simp [buildComb]
  | cons q rest ih =>
      intro acc
      obtain ⟨ks, v⟩ := q
      by_cases hv : v = Val.vnone
      · subst hv
        rw [buildComb_cons_none, ih acc, List.map_cons]
        show _ = buildComb (acc.map valStrip)
          ((ks, stripNones Val.vnone) :: rest.map (fun q => (q.1, stripNones q.2)))
        rw [show stripNones Val.vnone = Val.vnone from rfl, buildComb_cons_none]
      · have hv' : stripNones v ≠ Val.vnone :=
          fun h => hv ((stripNones_vnone_iff v).mp h)
        rw [buildComb_cons_ne _ _ _ hv, ih (pySet acc (String.intercalate "." ks) v),
          List.map_cons]
        show _ = buildComb (acc.map valStrip)
          ((ks, stripNones v) :: rest.map (fun q => (q.1, stripNones q.2)))
        rw [buildComb_cons_ne _ _ _ hv', pySet_map_strip]

theorem stripNonesDict_eq_map {d : List (String × Val)}
    (h : ∀ p ∈ d, p.2 ≠ Val.vnone) :
    stripNonesDict d = d.map valStrip := by
  induction d with
  | nil => simp [stripNonesDict]
  | cons a rest ih =>
      obtain ⟨k, v⟩ := a
      rw [stripNonesDict_cons_ne k v (h (k, v) (List.mem_cons_self _ _)),
        List.map_cons, ih (fun p hp => h p (List.mem_cons_of_mem _ hp))]
      rfl

theorem pyProduct_map (h : Val → Val) :
    ∀ lls : List (List Val),
      pyProduct (lls.map (List.map h)) = (pyProduct lls).map (List.map h) := by
  intro lls
  induction lls with
  | nil => simp [pyProduct]
  | cons l rest ih =>
      show (l.map h).flatMap (fun x => (pyProduct (rest.map (List.map h))).map
        (fun t => x :: t)) = _
      rw [ih, List.flatMap_map]
      show (l.flatMap fun a => ((pyProduct rest).map (List.map h)).map
        (fun t => h a :: t)) = ((l.flatMap fun x => (pyProduct rest).map
        (fun t => x :: t)).map (List.map h))
      rw [List.map_flatMap]
      refine flatMap_congr_mem _ _ l ?_
      intro a _
      rw [List.map_map, List.map_map]
      rfl

theorem buildComb_forall (P : Val → Prop) :
    ∀ (pairs : List (List String × Val)) (acc : List (String × Val)),
      (∀ p ∈ acc, P p.2) → (∀ q ∈ pairs, q.2 ≠ Val.vnone → P q.2) →
      ∀ p ∈ buildComb acc pairs, P p.2 := by
  intro pairs
  induction pairs with
  | nil => intro acc hacc _; exact hacc
  | cons q rest ih =>
      intro acc hacc hq
      obtain ⟨ks, v⟩ := q
      by_cases hv : v = Val.vnone
      · subst hv
        rw [buildComb_cons_none]
        exact ih acc hacc (fun q' hq' => hq q' (List.mem_cons_of_mem _ hq'))
      · rw [buildComb_cons_ne _ _ _ hv]
        exact ih _
          (pySet_forall P acc _ v hacc (hq (ks, v) (List.mem_cons_self _ _) hv))
          (fun q' hq' => hq q' (List.mem_cons_of_mem _ hq'))

/-- `flatten` cannot distinguish a value from its `None`-stripped form:
each dict entry with value `None` is dropped along the way, at every
nesting depth, including inside list elements. -/
theorem flattenFuel_strip : ∀ (f : Nat) (v : Val),
    flattenFuel f (stripNones v) = flattenFuel f v := by
  intro f
  induction f with
  | zero => intro v; rfl
  | succ f ih =>
      intro v
      simp only [flattenFuel]
      cases haux : pyFlattenAux v [] with
      | mk o ls =>
          rw [pyFlattenAux_strip (sizeVal v) v [] le_rfl, haux]
          cases o with
          | none =>
              show (mapStripVs ls).flatMap _ = ls.flatMap _
              rw [mapStripVs, List.flatMap_map]
              refine flatMap_congr_mem _ _ ls ?_
              intro kvs _
              show (stripNonesList kvs.2).flatMap _ = kvs.2.flatMap _
              rw [stripNonesList_eq_map, List.flatMap_map]
              refine flatMap_congr_mem _ _ kvs.2 ?_
              intro w _
              cases w with
              | vnone => rfl
              | vbool b => rfl
              | vint i => rfl
              | vstr s => rfl
              | vdate s => rfl
              | vlist l =>
                  show flattenFuel f (stripNones (Val.vlist l)) =
                    flattenFuel f (Val.vlist l)
                  exact ih (Val.vlist l)
              | vdict l =>
                  show flattenFuel f (stripNones (Val.vdict l)) =
                    flattenFuel f (Val.vdict l)
                  exact ih (Val.vdict l)
          | some d =>
              cases ls with
              | nil => rfl
              | cons p ps =>
                  show (pyProduct ((mapStripVs (p :: ps)).map Prod.snd)).flatMap _ =
                    (pyProduct ((p :: ps).map Prod.snd)).flatMap _
                  have hd_scalar : ∀ q ∈ d, isScalar q.2 = true := by
                    intro q hq
                    have := pyFlattenAux_scalars (sizeVal v) v [] le_rfl q
                    rw [haux] at this
                    exact this hq
                  have hd_nonone : ∀ q ∈ d, q.2 ≠ Val.vnone :=
                    fun q hq => (isScalar_strip_fix (hd_scalar q hq)).2
                  have hd_fix : d.map valStrip = d := by
                    have hfix : ∀ q ∈ d, valStrip q = q := by
                      intro q hq
                      show (q.1, stripNones q.2) = q
                      rw [(isScalar_strip_fix (hd_scalar q hq)).1]
                    rw [List.map_congr_left hfix]
                    exact List.map_id' d
                  have hkeys : (mapStripVs (p :: ps)).map Prod.fst =
                      (p :: ps).map Prod.fst := by
                    rw [mapStripVs, List.map_map]
                    rfl
                  have hlls : (mapStripVs (p :: ps)).map Prod.snd =
                      ((p :: ps).map Prod.snd).map (List.map stripNones) := by
                    rw [mapStripVs, List.map_map, List.map_map]
                    refine List.map_congr_left ?_
                    intro q _
                    show stripNonesList q.2 = (q.2).map stripNones
                    exact stripNonesList_eq_map q.2
                  rw [hkeys, hlls, pyProduct_map, List.flatMap_map]
                  refine flatMap_congr_mem _ _ (pyProduct ((p :: ps).map Prod.snd)) ?_
                  intro vals _
                  have hzipmap : ((p :: ps).map Prod.fst).zip (vals.map stripNones) =
                      (((p :: ps).map Prod.fst).zip vals).map
                        (fun q => (q.1, stripNones q.2)) := by
                    rw [List.zip_map_right]
                    refine List.map_congr_left ?_
                    intro q _
                    rfl
                  have hA_nonone : ∀ q ∈ buildComb []
                      (((p :: ps).map Prod.fst).zip vals), q.2 ≠ Val.vnone := by
                    refine buildComb_forall (fun x => x ≠ Val.vnone) _ [] ?_ ?_
                    · intro q hq; simp at hq
                    · intro q _ hq; exact hq
                  have hUp_nonone : ∀ q ∈ pyUpdate
                      (buildComb [] (((p :: ps).map Prod.fst).zip vals)) d,
                      q.2 ≠ Val.vnone :=
                    pyUpdate_forall (fun x => x ≠ Val.vnone) d _ hA_nonone hd_nonone
                  have hstriparg : Val.vdict (pyUpdate (buildComb []
                        (((p :: ps).map Prod.fst).zip (vals.map stripNones))) d) =
                      stripNones (Val.vdict (pyUpdate (buildComb []
                        (((p :: ps).map Prod.fst).zip vals)) d)) := by
                    have h1 : stripNones (Val.vdict (pyUpdate (buildComb []
                        (((p :: ps).map Prod.fst).zip vals)) d)) =
                        Val.vdict (stripNonesDict (pyUpdate (buildComb []
                        (((p :: ps).map Prod.fst).zip vals)) d)) := by
                      simp [stripNones]
                    rw [h1, stripNonesDict_eq_map hUp_nonone, pyUpdate_map_strip,
                      hd_fix, buildComb_map_strip, hzipmap]
                    rfl
                  rw [hstriparg]
                  exact ih _

theorem pyFlatten_strip (v : Val) : pyFlatten (stripNones v) = pyFlatten v := by
  calc pyFlatten (stripNones v)
      = flattenFuel (max (sizeVal v) (sizeVal (stripNones v))) (stripNones v) :=
        (flattenFuel_adequate _ _ (le_max_right _ _)).symm
    _ = flattenFuel (max (sizeVal v) (sizeVal (stripNones v))) v :=
        flattenFuel_strip _ v
    _ = pyFlatten v := flattenFuel_adequate _ _ (le_max_left _ _)

theorem fixDataForJson_vnone_iff (v : Val) :
    fixDataForJson v = Val.vnone ↔ v = Val.vnone := by
  cases v <;> simp [fixDataForJson]

theorem fixListForJson_eq_map (l : List Val) :
    fixListForJson l = l.map fixDataForJson := by
  induction l with
  | nil => simp [fixListForJson]
  | cons v rest ih => simp [fixListForJson, ih]

theorem fixDictForJson_cons (k : String) (v : Val) (rest : List (String × Val)) :
    fixDictForJson ((k, v) :: rest) = (k, fixDataForJson v) :: fixDictForJson rest := by
  simp [fixDictForJson]

theorem fix_strip_dict_aux :
    ∀ l : List (String × Val),
      (∀ p ∈ l, stripNones (fixDataForJson p.2) = fixDataForJson (stripNones p.2)) →
      stripNonesDict (fixDictForJson l) = fixDictForJson (stripNonesDict l) := by
  intro l
  induction l with
  | nil => intro _; simp [fixDictForJson, stripNonesDict]
  | cons a rest ih =>
      intro h
      obtain ⟨k, v⟩ := a
      by_cases hv : v = Val.vnone
      · subst hv
        rw [fixDictForJson_cons, show fixDataForJson Val.vnone = Val.vnone from rfl,
          stripNonesDict_cons_none, stripNonesDict_cons_none,
          ih (fun p hp => h p (List.mem_cons_of_mem _ hp))]
      · have hfv : fixDataForJson v ≠ Val.vnone :=
          fun hc => hv ((fixDataForJson_vnone_iff v).mp hc)
        have hsv : stripNones v ≠ Val.vnone :=
          fun hc => hv ((stripNones_vnone_iff v).mp hc)
        rw [fixDictForJson_cons, stripNonesDict_cons_ne k _ hfv,
          stripNonesDict_cons_ne k v hv, fixDictForJson_cons,
          ih (fun p hp => h p (List.mem_cons_of_mem _ hp)),
          h (k, v) (List.mem_cons_self _ _)]

/-- Converting to JSON-safe values commutes with `None`-stripping. -/
theorem fix_strip_comm :
    ∀ (n : Nat) (v : Val), sizeVal v ≤ n →
      stripNones (fixDataForJson v) = fixDataForJson (stripNones v) := by
  intro n
  induction n with
  | zero =>
      intro v h
      have := sizeVal_pos v
      omega
  | succ n ih =>
      intro v h
      cases v with
      | vnone => rfl
      | vbool b => rfl
      | vint i => rfl
      | vstr s => rfl
      | vdate s => rfl
      | vlist l =>
          show stripNones (Val.vlist (fixListForJson l)) =
            fixDataForJson (Val.vlist (stripNonesList l))
          rw [show stripNones (Val.vlist (fixListForJson l)) =
              Val.vlist (stripNonesList (fixListForJson l)) from by simp [stripNones],
            show fixDataForJson (Val.vlist (stripNonesList l)) =
              Val.vlist (fixListForJson (stripNonesList l)) from by simp [fixDataForJson]]
          rw [stripNonesList_eq_map, stripNonesList_eq_map, fixListForJson_eq_map,
            fixListForJson_eq_map, List.map_map, List.map_map]
          refine congrArg Val.vlist (List.map_congr_left ?_)
          intro w hw
          have hsz := sizeValList_mem hw
          have hlsz : sizeVal (Val.vlist l) = 1 + sizeValList l := by simp [sizeVal]
          exact ih w (by omega)
      | vdict l =>
          show stripNones (Val.vdict (fixDictForJson l)) =
            fixDataForJson (Val.vdict (stripNonesDict l))
          rw [show stripNones (Val.vdict (fixDictForJson l)) =
              Val.vdict (stripNonesDict (fixDictForJson l)) from by simp [stripNones],
            show fixDataForJson (Val.vdict (stripNonesDict l)) =
              Val.vdict (fixDictForJson (stripNonesDict l)) from by simp [fixDataForJson]]
          refine congrArg Val.vdict (fix_strip_dict_aux l ?_)
          intro p hp
          have hsz := sizeValDict_mem hp
          have hlsz : sizeVal (Val.vdict l) = 1 + sizeValDict l := by simp [sizeVal]
          exact ih p.2 (by omega)

/-- Taking the non-reserved columns commutes with `None`-stripping. -/
theorem take_strip_comm (d : List (String × Val)) :
    stripNonesDict (pyTake d) = pyTake (stripNonesDict d) := by
  induction d with
  | nil => simp [pyTake, stripNonesDict]
  | cons a rest ih =>
      obtain ⟨k, v⟩ := a
      by_cases hv : v = Val.vnone
      · subst hv
        by_cases hk : k.startsWith "_"
        · rw [show pyTake ((k, Val.vnone) :: rest) = pyTake rest from by
              simp [pyTake, hk],
            stripNonesDict_cons_none,
            show pyTake (stripNonesDict rest) = pyTake (stripNonesDict rest) from rfl, ih]
        · rw [show pyTake ((k, Val.vnone) :: rest) =
              (k, Val.vnone) :: pyTake rest from by simp [pyTake, hk],
            stripNonesDict_cons_none, stripNonesDict_cons_none, ih]
      · have hv' : stripNones v ≠ Val.vnone :=
          fun hc => hv ((stripNones_vnone_iff v).mp hc)
        by_cases hk : k.startsWith "_"
        · rw [show pyTake ((k, v) :: rest) = pyTake rest from by simp [pyTake, hk],
            stripNonesDict_cons_ne k v hv,
            show pyTake ((k, stripNones v) :: stripNonesDict rest) =
              pyTake (stripNonesDict rest) from by simp [pyTake, hk], ih]
        · rw [show pyTake ((k, v) :: rest) = (k, v) :: pyTake rest from by
              simp [pyTake, hk],
            stripNonesDict_cons_ne k v hv, stripNonesDict_cons_ne k v hv,
            show pyTake ((k, stripNones v) :: stripNonesDict rest) =
              (k, stripNones v) :: pyTake (stripNonesDict rest) from by
              simp [pyTake, hk], ih]

/-- Claim C10: `flatten` drops every dict key whose value is `None`, at
any nesting depth — it cannot distinguish a value from its
`None`-stripped form — so two rows whose `None`-stripped forms coincide
(in particular, rows differing only in a field being `None` in one and
absent in the other) get equal push checksums and are indistinguishable
to the state-diff stage. -/
theorem claim_C10_flatten_drops_none :
    (∀ v : Val, pyFlatten (stripNones v) = pyFlatten v) ∧
    (∀ (msgpackDumps : List (String × Val) → List Nat)
       (sha1hex : List Nat → String) (d1 d2 : List (String × Val)),
      stripNones (Val.vdict d1) = stripNones (Val.vdict d2) →
      pushChecksum msgpackDumps sha1hex d1 = pushChecksum msgpackDumps sha1hex d2) := by
  constructor
  · exact pyFlatten_strip
  · intro msgpackDumps sha1hex d1 d2 h
    have hstrip : ∀ d : List (String × Val),
        stripNones (Val.vlist [fixDataForJson (Val.vdict (pyTake d))]) =
          Val.vlist [fixDataForJson (Val.vdict (pyTake (stripNonesDict d)))] := by
      intro d
      rw [show stripNones (Val.vlist [fixDataForJson (Val.vdict (pyTake d))]) =
          Val.vlist (stripNonesList [fixDataForJson (Val.vdict (pyTake d))]) from by
          simp [stripNones],
        show stripNonesList [fixDataForJson (Val.vdict (pyTake d))] =
          [stripNones (fixDataForJson (Val.vdict (pyTake d)))] from by
          simp [stripNonesList],
        fix_strip_comm (sizeVal (Val.vdict (pyTake d))) _ le_rfl,
        show stripNones (Val.vdict (pyTake d)) =
          Val.vdict (stripNonesDict (pyTake d)) from by simp [stripNones],
        take_strip_comm]
    have hd : stripNonesDict d1 = stripNonesDict d2 := by
      have h1 : stripNones (Val.vdict d1) = Val.vdict (stripNonesDict d1) := by
        simp [stripNones]
      have h2 : stripNones (Val.vdict d2) = Val.vdict (stripNonesDict d2) := by
        simp [stripNones]
      rw [h1, h2] at h
      exact Val.vdict.inj h
    unfold pushChecksum checksumList
    rw [← pyFlatten_strip (Val.vlist [fixDataForJson (Val.vdict (pyTake d1))]),
      ← pyFlatten_strip (Val.vlist [fixDataForJson (Val.vdict (pyTake d2))]),
      hstrip d1, hstrip d2, hd]

/-- Claim C10, witness: the rows `{a: 1, b: None}` and `{a: 1}` get the
same push checksum. -/
theorem claim_C10_witness :
    pushChecksum (fun l => [l.length])
        (fun ns => String.intercalate "," (ns.map (fun n => toString n)))
        [("a", Val.vint 1), ("b", Val.vnone)] =
      pushChecksum (fun l => [l.length])
        (fun ns => String.intercalate "," (ns.map (fun n => toString n)))
        [("a", Val.vint 1)] := by
  refine claim_C10_flatten_drops_none.2 _ _ _ _ ?_
  rw [show stripNones (Val.vdict [("a", Val.vint 1), ("b", Val.vnone)]) =
      Val.vdict (stripNonesDict [("a", Val.vint 1), ("b", Val.vnone)]) from by
      simp [stripNones],
    show stripNones (Val.vdict [("a", Val.vint 1)]) =
      Val.vdict (stripNonesDict [("a", Val.vint 1)]) from by simp [stripNones],
    stripNonesDict_cons_ne "a" (Val.vint 1) (by simp),
    stripNonesDict_cons_none, stripNonesDict_nil,
    stripNonesDict_cons_ne "a" (Val.vint 1) (by simp), stripNonesDict_nil]

end Spinta
